import Mathlib

/-! Mandelbrot_Parallel: row partitioning, rendering and tally

A shallow embedding of `src/mandelbrot/mandelbrot-parallel.cpp`.

Conventions of the embedding:

* C++ `int` values are modelled by `Int`; `/` on `int` is truncating division
  (`Int.tdiv`).  `worker_static`, `worker_dynamic` and `seed` take the `int`
  arithmetic in unbounded integers: they are the source functions as long as
  no `int` overflows.  `I32.worker_static`, `I32.worker_dynamic` and `I32.seed`
  take the two operations that can leave the range of a 32-bit `int` for
  thread ids `0 ≤ thread_id < num_threads` and an `int` height, namely
  `255 * thread_id` and `row += num_threads`, in two's complement (`wrap32`).
  The two versions agree while these operations stay in range
  (`i32_worker_static_eq_ideal`, `i32_worker_dynamic_eq_ideal`); the remaining
  row arithmetic of `worker_static` cannot overflow
  (`static_arithmetic_in_range`), nor can `col++` (`col < image.width`).  The
  counter `pixels_inside` is an unbounded integer, exact while the tally fits
  an `int`.
* `double` values are idealised by exact rationals (`ℚ`).
* The header `mandelbrot-helpers.hpp` is not part of the sources.  Its
  `Image` class is modelled from the specification, and `mandelbrot_kernel`
  is a parameter of every definition that calls it.
* A `for` statement is modelled by `for_loop`, which re-evaluates the loop
  condition before every iteration and takes an iteration bound; the workers
  supply a bound that the loop never reaches when `num_threads ≥ 1`
  (`for_loop_extra_fuel`, `render_row_fuel`, `worker_static_fuel`,
  `worker_dynamic_fuel`, `run_threads_fuel`).
* The fields `rows`, `accesses` and `threads` of `State` are ghost fields: they
  record the control flow (row iterations, pixel accesses, threads created) and
  never influence the image or the counter.
* `run_static`, `run_dynamic` and `main` run the threads one after another in
  the order in which `main` creates them.
-/

namespace Mandelbrot

/-! ## Definitions: the program -/

/-- The C++ type `std::array<int, 3>`. -/
abbrev Pixel := Int × Int × Int

/-- Modelled from the spec: the `Image` class of `mandelbrot-helpers.hpp`, a
row-major grid of `height` × `width` pixels addressed as `image[row][col]`. -/
structure Image where
  height : Int
  width : Int
  data : Int → Int → Pixel

/-- The assignment `image[row][col] = p`. -/
def Image.set (img : Image) (row col : Int) (p : Pixel) : Image :=
  { img with data := fun r c => if r = row ∧ c = col then p else img.data r c }

/-- Modelled from the spec: the constructor `Image(height, width)`, which
allocates the image zero-initialised. -/
def Image.zero (height width : Int) : Image :=
  { height := height, width := width, data := fun _ _ => (0, 0, 0) }

/-- The escape-time kernel `mandelbrot_kernel(c, pixel, color)` declared in
`mandelbrot-helpers.hpp`: it receives the point, the pixel (passed as an
lvalue, so its previous value is available) and the colour seed, and yields the
new pixel value together with the "inside the set" flag. -/
abbrev Kernel := ℚ × ℚ → Pixel → Int → Pixel × Bool

def X_MIN : ℚ := -2
def X_MAX : ℚ := 1
def Y_MIN : ℚ := -3 / 2
def Y_MAX : ℚ := 3 / 2

/-- The two kinds of worker thread that `main` creates. -/
inductive WorkerKind where
  | static
  | dynamic
  deriving DecidableEq, Repr

/-- The state shared by the workers: the image and the counter
`pixels_inside`, together with the ghost fields. -/
structure State where
  image : Image
  pixels_inside : Int
  rows : List Int
  accesses : List (Int × Int)
  threads : List (WorkerKind × Int)

/-- The statement `for (i = i0; cond; i = next i) body`, with an iteration
bound `fuel`. -/
def for_loop {σ : Type} (cond : Int → σ → Bool) (next : Int → Int) (body : Int → σ → σ) :
    Nat → Int → σ → σ
  | 0, _, s => s
  | fuel + 1, i, s =>
    if cond i s then for_loop cond next body fuel (next i) (body i s) else s

/-- The viewport mapping of the inner loop body (`dx`, `dy`). -/
def point (img : Image) (row col : Int) : ℚ × ℚ :=
  (X_MIN + ((col : ℚ) / (img.width : ℚ)) * (X_MAX - X_MIN),
   Y_MIN + ((row : ℚ) / (img.height : ℚ)) * (Y_MAX - Y_MIN))

/-- The body of the inner (column) loop, identical in both workers. -/
def render_pixel (kernel : Kernel) (color row col : Int) (s : State) : State :=
  let c := point s.image row col
  let r := kernel c (s.image.data row col) color
  { s with
    image := s.image.set row col r.1
    pixels_inside := if r.2 then s.pixels_inside + 1 else s.pixels_inside
    accesses := s.accesses ++ [(row, col)] }

/-- The body of the outer (row) loop: `for (int col = 0; col < image.width; ++col)`. -/
def render_row (kernel : Kernel) (color row : Int) (s : State) : State :=
  for_loop (fun col st => decide (col < st.image.width)) (fun col => col + 1)
    (render_pixel kernel color row) s.image.width.toNat 0
    { s with rows := s.rows ++ [row] }

/-- The function `worker_static`, with the `int` arithmetic in unbounded
integers (the source function as long as `255 * thread_id` fits an `int`; see
`I32.worker_static`). -/
def worker_static (kernel : Kernel) (thread_id num_threads : Int) (s : State) : State :=
  let rows_per_thread := Int.tdiv s.image.height num_threads
  let start_row := thread_id * rows_per_thread
  let end_row := (thread_id + 1) * rows_per_thread
  let color := Int.tdiv (255 * thread_id) num_threads
  for_loop (fun row _ => decide (row < end_row)) (fun row => row + 1)
    (render_row kernel color) (end_row - start_row).toNat start_row s

/-- The function `worker_dynamic`, with the `int` arithmetic in unbounded
integers (the source function as long as `255 * thread_id` and
`row += num_threads` stay within `int`; see `I32.worker_dynamic`). -/
def worker_dynamic (kernel : Kernel) (thread_id num_threads : Int) (s : State) : State :=
  let color := Int.tdiv (255 * thread_id) num_threads
  for_loop (fun row st => decide (row < st.image.height)) (fun row => row + num_threads)
    (render_row kernel color) (s.image.height - thread_id).toNat thread_id s

/-- The thread-creation loop of `main`,
`for (int tid = 0; tid < num_threads; ++tid)`, each thread running to
completion when it is created. -/
def run_threads (kind : WorkerKind) (worker : Int → Int → State → State)
    (num_threads : Int) (s : State) : State :=
  for_loop (fun tid _ => decide (tid < num_threads)) (fun tid => tid + 1)
    (fun tid st => worker tid num_threads { st with threads := st.threads ++ [(kind, tid)] })
    num_threads.toNat 0 s

/-- The `"static"` branch of `main`. -/
def run_static (kernel : Kernel) (num_threads : Int) (s : State) : State :=
  run_threads WorkerKind.static (worker_static kernel) num_threads s

/-- The `"dynamic"` branch of `main`. -/
def run_dynamic (kernel : Kernel) (num_threads : Int) (s : State) : State :=
  run_threads WorkerKind.dynamic (worker_dynamic kernel) num_threads s

/-- The values that `parse_args` leaves in the variables of `main`. -/
structure Config where
  num_threads : Int
  work_allocation : String
  height : Int
  width : Int
  print_level : Int

/-- What a run of `main` leaves behind: the exit status, the image handed to
`save_to_ppm` (if any), the lines printed (if any) and the final state. -/
structure Outcome where
  exit_status : Int
  saved : Option Image
  printed_allocation : Option String
  printed_pixels : Option Int
  state : State

/-- The state of `main` before the threads are created. -/
def initial_state (height width : Int) : State :=
  { image := Image.zero height width, pixels_inside := 0, rows := [], accesses := [],
    threads := [] }

/-- The function `main`, from the return of `parse_args` on. -/
def main (kernel : Kernel) (cfg : Config) : Outcome :=
  let s0 := initial_state cfg.height cfg.width
  if cfg.work_allocation = "static" then
    let s := run_static kernel cfg.num_threads s0
    { exit_status := 0, saved := some s.image,
      printed_allocation := if cfg.print_level ≥ 2 then some cfg.work_allocation else none,
      printed_pixels := if cfg.print_level ≥ 1 then some s.pixels_inside else none,
      state := s }
  else if cfg.work_allocation = "dynamic" then
    let s := run_dynamic kernel cfg.num_threads s0
    { exit_status := 0, saved := some s.image,
      printed_allocation := if cfg.print_level ≥ 2 then some cfg.work_allocation else none,
      printed_pixels := if cfg.print_level ≥ 1 then some s.pixels_inside else none,
      state := s }
  else
    { exit_status := 1, saved := none, printed_allocation := none, printed_pixels := none,
      state := s0 }

/-! ## Definitions: descriptions of what the loops do, used in the statements and proofs -/

/-- The successive values of the loop variable of
`for (i = i0; i < bound; i += step)`, with the same iteration bound as
`for_loop`. -/
def loop_indices (bound step : Int) : Nat → Int → List Int
  | 0, _ => []
  | fuel + 1, i => if i < bound then i :: loop_indices bound step fuel (i + step) else []

/-- The strided sequence `t, t + n, t + 2n, …` below `h`, in closed form. -/
def strided_rows (t n h : Int) : List Int :=
  (List.range ((h - t + n - 1) / n).toNat).map (fun k : Nat => t + (k : Int) * n)

/-- The contiguous block `[t * rpt, (t + 1) * rpt)`, in closed form. -/
def block_rows (t rpt : Int) : List Int :=
  (List.range rpt.toNat).map (fun k : Nat => t * rpt + (k : Int))

/-- The column indices `0, 1, …, w - 1` of the inner loop. -/
def cols (w : Int) : List Int := loop_indices w 1 w.toNat 0

/-- The pixel value the kernel produces at `(row, col)` of `img`. -/
def pixel_of (kernel : Kernel) (img : Image) (color row col : Int) : Pixel :=
  (kernel (point img row col) (img.data row col) color).1

/-- The "inside" flag the kernel reports at `(row, col)` of `img`. -/
def inside_of (kernel : Kernel) (img : Image) (color row col : Int) : Bool :=
  (kernel (point img row col) (img.data row col) color).2

/-- The number of columns of `row` at which the kernel reports "inside". -/
def row_count (kernel : Kernel) (img : Image) (color row : Int) : Nat :=
  (cols img.width).countP (fun c => inside_of kernel img color row c)

/-- The column loop unrolled over an explicit list of columns. -/
def render_cols (kernel : Kernel) (color row : Int) (l : List Int) (s : State) : State :=
  l.foldl (fun st c => render_pixel kernel color row c st) s

/-- A sequence of row iterations; a job is a pair `(colour seed, row)`. -/
def render_jobs (kernel : Kernel) (jobs : List (Int × Int)) (s : State) : State :=
  jobs.foldl (fun st j => render_row kernel j.1 j.2 st) s

/-- Replacing the ghost field `threads`. -/
def State.set_threads (s : State) (ths : List (WorkerKind × Int)) : State :=
  { s with threads := ths }

/-- The colour seed `(255 * thread_id) / num_threads` of both workers, with the
product in unbounded integers (see `I32.seed` for the 32-bit product). -/
def seed (t n : Int) : Int := Int.tdiv (255 * t) n

/-- The row iterations of `worker_dynamic`, read off its loop header. -/
def dynamic_jobs (t n h : Int) : List (Int × Int) :=
  (loop_indices h n (h - t).toNat t).map (fun r => (seed t n, r))

/-- The row iterations of `worker_static`, read off its loop header. -/
def static_jobs (t n h : Int) : List (Int × Int) :=
  (loop_indices ((t + 1) * Int.tdiv h n) 1
    ((t + 1) * Int.tdiv h n - t * Int.tdiv h n).toNat (t * Int.tdiv h n)).map
    (fun r => (seed t n, r))

/-- The rows `0, 1, …, m - 1`. -/
def row_range (m : Int) : List Int := (List.range m.toNat).map (fun k : Nat => (k : Int))

/-- The pixels of the given rows of an image of width `w`, row by row and
within a row from column 0 to column `w - 1`. -/
def pixels_of_rows (rows : List Int) (w : Int) : List (Int × Int) :=
  rows.flatMap (fun r => (row_range w).map (fun c => (r, c)))

/-- The inner loop body applied to an explicit list of pixels. -/
def render_pixels (kernel : Kernel) (color : Int) (l : List (Int × Int)) (s : State) : State :=
  l.foldl (fun st p => render_pixel kernel color p.1 p.2 st) s

/-- The single-threaded reference render: the kernel with colour seed 0
applied to every pixel of every row `0 .. height-1`, in row-major order. -/
def render_sequential (kernel : Kernel) (s : State) : State :=
  render_pixels kernel 0 (pixels_of_rows (row_range s.image.height) s.image.width) s

/-- Replacing the ghost field `rows`. -/
def State.set_rows (s : State) (rows : List Int) : State :=
  { s with rows := rows }

/-- All row iterations of a full dynamic render, in the order of execution. -/
def dynamic_all (n h : Int) : List (Int × Int) :=
  (cols n).flatMap (fun t => dynamic_jobs t n h)

/-- All row iterations of a full static render, in the order of execution. -/
def static_all (n h : Int) : List (Int × Int) :=
  (cols n).flatMap (fun t => static_jobs t n h)

/-- The image in which every pixel of the rows `0 .. m - 1` holds the value the
kernel produces for it from `img` when given the seed `seed_of row`, and every
other pixel is as in `img`. -/
def full_image (kernel : Kernel) (img : Image) (seed_of : Int → Int) (m : Int) : Image :=
  { height := img.height
    width := img.width
    data := fun r c =>
      if 0 ≤ r ∧ r < m ∧ 0 ≤ c ∧ c < img.width then
        (kernel (point img r c) (img.data r c) (seed_of r)).1
      else img.data r c }

/-- A kernel that reports every pixel as inside and paints it with the seed. -/
def kAll : Kernel := fun _ _ color => ((color, 0, 0), true)

/-- Where a thread stands inside the statement
`if (mandelbrot_kernel(c, pixel, color)) pixels_inside++;`: not inside the
increment, about to read `pixels_inside`, or about to write back the value it
has read plus one. -/
inductive Pending where
  | idle
  | load
  | store (v : Int)
  deriving DecidableEq

/-- The private data of a running worker thread: the pixels it still has to
process (in the order of its loops), its colour seed, and its position inside
the increment. -/
structure Thread where
  todo : List (Int × Int)
  color : Int
  pending : Pending

/-- One atomic step of a thread on the shared state: the kernel call for the
next pixel with the write of that pixel, or the read of `pixels_inside`, or the
write of `pixels_inside`.  A thread with nothing left to do does not move. -/
def Thread.step (kernel : Kernel) (th : Thread) (s : State) : Thread × State :=
  match th.pending with
  | Pending.store v => ({ th with pending := Pending.idle }, { s with pixels_inside := v + 1 })
  | Pending.load => ({ th with pending := Pending.store s.pixels_inside }, s)
  | Pending.idle =>
    match th.todo with
    | [] => (th, s)
    | (row, col) :: rest =>
      let r := kernel (point s.image row col) (s.image.data row col) th.color
      ({ th with todo := rest, pending := if r.2 then Pending.load else Pending.idle },
        { s with image := s.image.set row col r.1, accesses := s.accesses ++ [(row, col)] })

/-- The threads run interleaved: the schedule names, step by step, the thread
that moves next. -/
def interleave (kernel : Kernel) : List Nat → List Thread → State → List Thread × State
  | [], ths, s => (ths, s)
  | i :: sched, ths, s =>
    match ths.get? i with
    | none => interleave kernel sched ths s
    | some th => interleave kernel sched (ths.set i (th.step kernel s).1) (th.step kernel s).2

/-- A thread that has processed all its pixels and completed its last
increment, so that `join` returns. -/
def Thread.finished (th : Thread) : Bool :=
  th.todo.isEmpty && decide (th.pending = Pending.idle)

/-- The threads `main` creates for the thread ids `0 .. n-1`; each thread
processes the pixels its worker function accesses, in that order. -/
def spawn (worker : Int → Int → State → State) (n : Int) (s : State) : List Thread :=
  (row_range n).map (fun t =>
    { todo := (worker t n { s with accesses := [] }).accesses, color := seed t n,
      pending := Pending.idle })

/-! ## Definitions: the workers with 32-bit `int` arithmetic -/

/-- The value a 32-bit two's complement `int` holds after an arithmetic
operation whose mathematical result is `x`.  (Signed overflow is undefined
behaviour in ISO C++; this is the result the usual compilers and machines
produce.) -/
def wrap32 (x : Int) : Int := (x + 2147483648) % 4294967296 - 2147483648

/-- The colour seed `(255 * thread_id) / num_threads` with the product taken in
32-bit `int`. -/
def I32.seed (t n : Int) : Int := Int.tdiv (wrap32 (255 * t)) n

/-- The function `worker_static` with the product `255 * thread_id` taken in
32-bit `int`.  The other operations of the function stay within `int` for
`0 ≤ thread_id < num_threads` and a height that is an `int`
(`static_arithmetic_in_range`). -/
def I32.worker_static (kernel : Kernel) (thread_id num_threads : Int) (s : State) : State :=
  let rows_per_thread := Int.tdiv s.image.height num_threads
  let start_row := thread_id * rows_per_thread
  let end_row := (thread_id + 1) * rows_per_thread
  let color := Int.tdiv (wrap32 (255 * thread_id)) num_threads
  for_loop (fun row _ => decide (row < end_row)) (fun row => row + 1)
    (render_row kernel color) (end_row - start_row).toNat start_row s

/-- The function `worker_dynamic` with the product `255 * thread_id` and the
step `row += num_threads` taken in 32-bit `int`.  With a wrapping step the row
loop need not leave after `height - thread_id` iterations, so the iteration
bound is a parameter. -/
def I32.worker_dynamic (kernel : Kernel) (fuel : Nat) (thread_id num_threads : Int)
    (s : State) : State :=
  let color := Int.tdiv (wrap32 (255 * thread_id)) num_threads
  for_loop (fun row st => decide (row < st.image.height))
    (fun row => wrap32 (row + num_threads)) (render_row kernel color) fuel thread_id s

/-- The `"static"` branch of `main` with the workers in 32-bit arithmetic. -/
def I32.run_static (kernel : Kernel) (num_threads : Int) (s : State) : State :=
  run_threads WorkerKind.static (I32.worker_static kernel) num_threads s

/-- The `"dynamic"` branch of `main` with the workers in 32-bit arithmetic;
every worker gets the iteration bound `fuel`. -/
def I32.run_dynamic (kernel : Kernel) (fuel : Nat) (num_threads : Int) (s : State) : State :=
  run_threads WorkerKind.dynamic (I32.worker_dynamic kernel fuel) num_threads s

/-- The successive values of the loop variable of
`for (i = i0; i < bound; i = next i)`, with the same iteration bound as
`for_loop`. -/
def loop_trace (bound : Int) (next : Int → Int) : Nat → Int → List Int
  | 0, _ => []
  | fuel + 1, i => if i < bound then i :: loop_trace bound next fuel (next i) else []

/-! ## Theorems -/

/-! ## The indices a counting loop runs through -/

theorem for_loop_eq_foldl {σ : Type} (cond : Int → σ → Bool) (body : Int → σ → σ)
    (bound step : Int) (P : σ → Prop)
    (hc : ∀ i s, P s → cond i s = decide (i < bound))
    (hP : ∀ i s, P s → P (body i s)) :
    ∀ (fuel : Nat) (i : Int) (s : σ), P s →
      for_loop cond (fun j => j + step) body fuel i s
        = (loop_indices bound step fuel i).foldl (fun st r => body r st) s := by
  intro fuel
  induction fuel with
  | zero => intro i s _; rfl
  | succ fuel ih =>
    intro i s hs
    by_cases hi : i < bound
    · simp [for_loop, loop_indices, hc i s hs, hi, ih (i + step) (body i s) (hP i s hs)]
    · simp [for_loop, loop_indices, hc i s hs, hi]

theorem loop_indices_extra_fuel (bound step : Int) (hstep : 0 < step) :
    ∀ (fuel : Nat) (i : Int), (bound - i).toNat ≤ fuel → ∀ extra : Nat,
      loop_indices bound step (fuel + extra) i = loop_indices bound step fuel i := by
  intro fuel
  induction fuel with
  | zero =>
    intro i hi extra
    have hb : ¬ i < bound := by omega
    cases extra with
    | zero => rfl
    | succ e => simp [loop_indices, hb]
  | succ fuel ih =>
    intro i hi extra
    have e : fuel + 1 + extra = (fuel + extra) + 1 := by omega
    rw [e]
    by_cases hb : i < bound
    · have h2 : (bound - (i + step)).toNat ≤ fuel := by omega
      simp [loop_indices, hb, ih (i + step) h2 extra]
    · simp [loop_indices, hb]

/-- A counting loop whose bound `fuel` is at least `bound - i` leaves by its
own condition: more fuel does not change the result. -/
theorem for_loop_extra_fuel {σ : Type} (cond : Int → σ → Bool) (body : Int → σ → σ)
    (bound step : Int) (hstep : 0 < step) (P : σ → Prop)
    (hc : ∀ i s, P s → cond i s = decide (i < bound))
    (hP : ∀ i s, P s → P (body i s))
    (fuel : Nat) (i : Int) (s : σ) (hs : P s) (hf : (bound - i).toNat ≤ fuel) (extra : Nat) :
    for_loop cond (fun j => j + step) body (fuel + extra) i s
      = for_loop cond (fun j => j + step) body fuel i s := by
  rw [for_loop_eq_foldl cond body bound step P hc hP _ i s hs,
    for_loop_eq_foldl cond body bound step P hc hP _ i s hs,
    loop_indices_extra_fuel bound step hstep fuel i hf extra]

theorem mem_loop_indices (bound step : Int) (hstep : 0 < step) :
    ∀ (fuel : Nat) (i : Int), (bound - i).toNat ≤ fuel → ∀ r : Int,
      (r ∈ loop_indices bound step fuel i ↔ ∃ k : Nat, r = i + (k : Int) * step ∧ r < bound) := by
  intro fuel
  induction fuel with
  | zero =>
    intro i hi r
    simp only [loop_indices, List.not_mem_nil, false_iff]
    rintro ⟨k, rfl, hk⟩
    have : 0 ≤ (k : Int) * step := by positivity
    omega
  | succ fuel ih =>
    intro i hi r
    by_cases hb : i < bound
    · have h2 : (bound - (i + step)).toNat ≤ fuel := by omega
      simp only [loop_indices, hb, if_true, List.mem_cons, ih (i + step) h2 r]
      constructor
      · rintro (rfl | ⟨k, rfl, hk⟩)
        · exact ⟨0, by simp, hb⟩
        · exact ⟨k + 1, by push_cast; ring, hk⟩
      · rintro ⟨k, rfl, hk⟩
        cases k with
        | zero => left; simp
        | succ k => right; exact ⟨k, by push_cast; ring, hk⟩
    · simp only [loop_indices, hb, if_false, List.not_mem_nil, false_iff]
      rintro ⟨k, rfl, hk⟩
      have : 0 ≤ (k : Int) * step := by positivity
      omega

theorem loop_indices_closed (bound step : Int) (hstep : 0 < step) :
    ∀ (fuel : Nat) (i : Int), (bound - i).toNat ≤ fuel →
      loop_indices bound step fuel i
        = (List.range ((bound - i + step - 1) / step).toNat).map
            (fun k : Nat => i + (k : Int) * step) := by
  intro fuel
  induction fuel with
  | zero =>
    intro i hi
    have hb : bound - i + step - 1 < step := by omega
    have h0 : (bound - i + step - 1) / step ≤ 0 := by
      have := Int.ediv_lt_of_lt_mul hstep (show bound - i + step - 1 < 1 * step by omega)
      omega
    simp [loop_indices, Int.toNat_eq_zero.mpr h0]
  | succ fuel ih =>
    intro i hi
    by_cases hb : i < bound
    · have h2 : (bound - (i + step)).toNat ≤ fuel := by omega
      have e1 : bound - i + step - 1 = (bound - (i + step) + step - 1) + step := by ring
      have e2 : (bound - i + step - 1) / step = (bound - (i + step) + step - 1) / step + 1 := by
        rw [e1, Int.add_ediv_of_dvd_right (dvd_refl step), Int.ediv_self (by omega)]
      have h3 : 0 ≤ (bound - (i + step) + step - 1) / step :=
        Int.ediv_nonneg (by omega) (by omega)
      have e3 : ((bound - i + step - 1) / step).toNat
          = ((bound - (i + step) + step - 1) / step).toNat + 1 := by
        rw [e2]; omega
      simp only [loop_indices, hb, if_true, ih (i + step) h2, e3, List.range_succ_eq_map,
        List.map_cons, List.map_map]
      refine congrArg₂ _ (by simp) (List.map_congr_left ?_)
      intro k _
      simp only [Function.comp, Nat.succ_eq_add_one]
      push_cast; ring
    · have h0 : (bound - i + step - 1) / step ≤ 0 := by
        have := Int.ediv_lt_of_lt_mul hstep (show bound - i + step - 1 < 1 * step by omega)
        omega
      simp [loop_indices, hb, Int.toNat_eq_zero.mpr h0]

theorem loop_indices_sorted (bound step : Int) (hstep : 0 < step) (fuel : Nat) (i : Int)
    (hf : (bound - i).toNat ≤ fuel) :
    List.Sorted (· < ·) (loop_indices bound step fuel i) := by
  rw [loop_indices_closed bound step hstep fuel i hf]
  refine List.Pairwise.map _ ?_ (List.pairwise_lt_range _)
  intro a b hab
  have : (a : Int) < b := by exact_mod_cast hab
  nlinarith

/-! ## The effect of rendering one row -/

theorem mem_cols (w c : Int) : c ∈ cols w ↔ 0 ≤ c ∧ c < w := by
  unfold cols
  rw [mem_loop_indices w 1 (by omega) w.toNat 0 (by omega)]
  constructor
  · rintro ⟨k, rfl, hk⟩
    omega
  · rintro ⟨h0, hw⟩
    exact ⟨c.toNat, by omega, hw⟩

theorem cols_nodup (w : Int) : (cols w).Nodup :=
  (loop_indices_sorted w 1 (by omega) w.toNat 0 (by omega)).nodup

theorem pixel_of_congr (kernel : Kernel) (a b : Image) (color row col : Int)
    (hh : a.height = b.height) (hw : a.width = b.width)
    (hd : a.data row col = b.data row col) :
    pixel_of kernel a color row col = pixel_of kernel b color row col := by
  simp [pixel_of, point, hh, hw, hd]

theorem inside_of_congr (kernel : Kernel) (a b : Image) (color row col : Int)
    (hh : a.height = b.height) (hw : a.width = b.width)
    (hd : a.data row col = b.data row col) :
    inside_of kernel a color row col = inside_of kernel b color row col := by
  simp [inside_of, point, hh, hw, hd]

theorem row_count_congr (kernel : Kernel) (a b : Image) (color row : Int)
    (hh : a.height = b.height) (hw : a.width = b.width)
    (hd : ∀ c, a.data row c = b.data row c) :
    row_count kernel a color row = row_count kernel b color row := by
  unfold row_count
  rw [hw]
  exact List.countP_congr (fun c _ => by rw [inside_of_congr kernel a b color row c hh hw (hd c)])

theorem render_cols_frame (kernel : Kernel) (color row : Int) (l : List Int) (s : State) :
    (render_cols kernel color row l s).image.height = s.image.height
    ∧ (render_cols kernel color row l s).image.width = s.image.width
    ∧ (render_cols kernel color row l s).rows = s.rows
    ∧ (render_cols kernel color row l s).threads = s.threads
    ∧ (render_cols kernel color row l s).accesses = s.accesses ++ l.map (fun c => (row, c)) := by
  induction l generalizing s with
  | nil => simp [render_cols]
  | cons c l ih =>
    obtain ⟨h1, h2, h3, h4, h5⟩ := ih (render_pixel kernel color row c s)
    simp only [render_cols, List.foldl_cons] at h1 h2 h3 h4 h5 ⊢
    refine ⟨h1, h2, h3, h4, ?_⟩
    rw [h5]
    simp [render_pixel]

theorem render_cols_data (kernel : Kernel) (color row : Int) (l : List Int) (hl : l.Nodup)
    (s : State) (r c : Int) :
    (render_cols kernel color row l s).image.data r c
      = if r = row ∧ c ∈ l then pixel_of kernel s.image color row c else s.image.data r c := by
  induction l generalizing s with
  | nil => simp [render_cols]
  | cons c0 l ih =>
    have hc0 : c0 ∉ l := (List.nodup_cons.mp hl).1
    have ih1 := ih (List.nodup_cons.mp hl).2 (render_pixel kernel color row c0 s)
    simp only [render_cols, List.foldl_cons] at ih1 ⊢
    rw [ih1]
    by_cases hr : r = row
    · subst hr
      by_cases hc : c ∈ l
      · have hne : c ≠ c0 := fun h => hc0 (h ▸ hc)
        simp only [hc, and_self, if_true, List.mem_cons, or_true]
        exact pixel_of_congr kernel _ _ color r c rfl rfl (by simp [render_pixel, Image.set, hne])
      · by_cases he : c = c0
        · subst he
          simp [hc, render_pixel, Image.set, pixel_of]
        · simp [hc, he, render_pixel, Image.set]
    · simp [hr, render_pixel, Image.set]

theorem render_cols_count (kernel : Kernel) (color row : Int) (l : List Int) (hl : l.Nodup)
    (s : State) :
    (render_cols kernel color row l s).pixels_inside
      = s.pixels_inside + (l.countP (fun c => inside_of kernel s.image color row c) : Nat) := by
  induction l generalizing s with
  | nil => simp [render_cols]
  | cons c0 l ih =>
    have hc0 : c0 ∉ l := (List.nodup_cons.mp hl).1
    have ih1 := ih (List.nodup_cons.mp hl).2 (render_pixel kernel color row c0 s)
    simp only [render_cols, List.foldl_cons] at ih1 ⊢
    rw [ih1]
    have e : l.countP (fun c => inside_of kernel (render_pixel kernel color row c0 s).image color row c)
        = l.countP (fun c => inside_of kernel s.image color row c) := by
      apply List.countP_congr
      intro c hc
      have hne : c ≠ c0 := fun h => hc0 (h ▸ hc)
      rw [inside_of_congr kernel (render_pixel kernel color row c0 s).image s.image color row c
        rfl rfl (by simp [render_pixel, Image.set, hne])]
    rw [e, List.countP_cons]
    by_cases hk : inside_of kernel s.image color row c0 = true
    · have hk2 : (kernel (point s.image row c0) (s.image.data row c0) color).2 = true := hk
      simp [hk, render_pixel, hk2]
      ring
    · have hk2 : ¬ (kernel (point s.image row c0) (s.image.data row c0) color).2 = true := hk
      simp [hk, render_pixel, hk2]

theorem render_row_eq (kernel : Kernel) (color row : Int) (s : State) :
    render_row kernel color row s
      = render_cols kernel color row (cols s.image.width) { s with rows := s.rows ++ [row] } := by
  unfold render_row render_cols cols
  exact for_loop_eq_foldl _ _ s.image.width 1 (fun st => st.image.width = s.image.width)
    (fun i st h => by simp [h]) (fun i st h => by simpa [render_pixel, Image.set] using h) _ _ _ rfl

theorem render_row_frame (kernel : Kernel) (color row : Int) (s : State) :
    (render_row kernel color row s).image.height = s.image.height
    ∧ (render_row kernel color row s).image.width = s.image.width
    ∧ (render_row kernel color row s).rows = s.rows ++ [row]
    ∧ (render_row kernel color row s).threads = s.threads
    ∧ (render_row kernel color row s).accesses
        = s.accesses ++ (cols s.image.width).map (fun c => (row, c)) := by
  rw [render_row_eq]
  exact render_cols_frame kernel color row _ _

theorem render_row_data (kernel : Kernel) (color row : Int) (s : State) (r c : Int) :
    (render_row kernel color row s).image.data r c
      = if r = row ∧ 0 ≤ c ∧ c < s.image.width then pixel_of kernel s.image color row c
        else s.image.data r c := by
  rw [render_row_eq, render_cols_data kernel color row _ (cols_nodup _)]
  simp only [mem_cols]

theorem render_row_count (kernel : Kernel) (color row : Int) (s : State) :
    (render_row kernel color row s).pixels_inside
      = s.pixels_inside + (row_count kernel s.image color row : Nat) := by
  rw [render_row_eq, render_cols_count kernel color row _ (cols_nodup _)]
  rfl

/-! ## Rendering a list of rows, each with its colour seed -/

theorem render_jobs_append (kernel : Kernel) (a b : List (Int × Int)) (s : State) :
    render_jobs kernel (a ++ b) s = render_jobs kernel b (render_jobs kernel a s) := by
  simp [render_jobs, List.foldl_append]

theorem render_jobs_frame (kernel : Kernel) (jobs : List (Int × Int)) (s : State) :
    (render_jobs kernel jobs s).image.height = s.image.height
    ∧ (render_jobs kernel jobs s).image.width = s.image.width
    ∧ (render_jobs kernel jobs s).rows = s.rows ++ jobs.map Prod.snd
    ∧ (render_jobs kernel jobs s).threads = s.threads
    ∧ (render_jobs kernel jobs s).accesses
        = s.accesses ++ jobs.flatMap (fun j => (cols s.image.width).map (fun c => (j.2, c))) := by
  induction jobs generalizing s with
  | nil => simp [render_jobs]
  | cons j jobs ih =>
    obtain ⟨h1, h2, h3, h4, h5⟩ := ih (render_row kernel j.1 j.2 s)
    obtain ⟨g1, g2, g3, g4, g5⟩ := render_row_frame kernel j.1 j.2 s
    simp only [render_jobs, List.foldl_cons] at h1 h2 h3 h4 h5 ⊢
    refine ⟨h1.trans g1, h2.trans g2, ?_, h4.trans g4, ?_⟩
    · rw [h3, g3]; simp
    · rw [h5, g5, g2]; simp

theorem render_jobs_untouched (kernel : Kernel) (jobs : List (Int × Int)) (s : State)
    (r c : Int) (h : r ∉ jobs.map Prod.snd ∨ ¬ (0 ≤ c ∧ c < s.image.width)) :
    (render_jobs kernel jobs s).image.data r c = s.image.data r c := by
  induction jobs generalizing s with
  | nil => simp [render_jobs]
  | cons j jobs ih =>
    have g2 := (render_row_frame kernel j.1 j.2 s).2.1
    have h1 : r ∉ jobs.map Prod.snd ∨ ¬ (0 ≤ c ∧ c < (render_row kernel j.1 j.2 s).image.width) := by
      rw [g2]
      rcases h with h | h
      · left; intro hm; exact h (by simp only [List.map_cons, List.mem_cons]; right; exact hm)
      · right; exact h
    have ih1 := ih (render_row kernel j.1 j.2 s) h1
    simp only [render_jobs, List.foldl_cons] at ih1 ⊢
    rw [ih1, render_row_data]
    have : ¬ (r = j.2 ∧ 0 ≤ c ∧ c < s.image.width) := by
      rintro ⟨hr, hc⟩
      rcases h with h | h
      · exact h (by simp [hr])
      · exact h hc
    simp [this]

theorem render_jobs_data (kernel : Kernel) (jobs : List (Int × Int))
    (hn : (jobs.map Prod.snd).Nodup) (s : State) (j : Int × Int) (hj : j ∈ jobs)
    (c : Int) (hc0 : 0 ≤ c) (hcw : c < s.image.width) :
    (render_jobs kernel jobs s).image.data j.2 c = pixel_of kernel s.image j.1 j.2 c := by
  induction jobs generalizing s with
  | nil => simp at hj
  | cons j0 jobs ih =>
    rw [List.map_cons, List.nodup_cons] at hn
    obtain ⟨g1, g2, -⟩ := render_row_frame kernel j0.1 j0.2 s
    rcases List.mem_cons.mp hj with rfl | hj
    · have := render_jobs_untouched kernel jobs (render_row kernel j.1 j.2 s) j.2 c (Or.inl hn.1)
      simp only [render_jobs, List.foldl_cons] at this ⊢
      rw [this, render_row_data]
      simp [hc0, hcw]
    · have ih1 := ih hn.2 (render_row kernel j0.1 j0.2 s) hj (by rw [g2]; exact hcw)
      simp only [render_jobs, List.foldl_cons] at ih1 ⊢
      rw [ih1]
      have hne : j.2 ≠ j0.2 := fun h => hn.1 (h ▸ List.mem_map_of_mem Prod.snd hj)
      exact pixel_of_congr kernel _ _ j.1 j.2 c g1 g2 (by rw [render_row_data]; simp [hne])

theorem render_jobs_count (kernel : Kernel) (jobs : List (Int × Int))
    (hn : (jobs.map Prod.snd).Nodup) (s : State) :
    (render_jobs kernel jobs s).pixels_inside
      = s.pixels_inside + ((jobs.map (fun j => row_count kernel s.image j.1 j.2)).sum : Nat) := by
  induction jobs generalizing s with
  | nil => simp [render_jobs]
  | cons j0 jobs ih =>
    rw [List.map_cons, List.nodup_cons] at hn
    obtain ⟨g1, g2, -⟩ := render_row_frame kernel j0.1 j0.2 s
    have ih1 := ih hn.2 (render_row kernel j0.1 j0.2 s)
    simp only [render_jobs, List.foldl_cons] at ih1 ⊢
    rw [ih1, render_row_count]
    have e : jobs.map (fun j => row_count kernel (render_row kernel j0.1 j0.2 s).image j.1 j.2)
        = jobs.map (fun j => row_count kernel s.image j.1 j.2) := by
      apply List.map_congr_left
      intro j hj
      have hne : j.2 ≠ j0.2 := fun h => hn.1 (h ▸ List.mem_map_of_mem Prod.snd hj)
      exact row_count_congr kernel _ _ j.1 j.2 g1 g2
        (fun c => by rw [render_row_data]; simp [hne])
    rw [e]
    simp only [List.map_cons, List.sum_cons]
    push_cast
    ring

theorem render_cols_set_threads (kernel : Kernel) (color row : Int) (l : List Int) (s : State)
    (ths : List (WorkerKind × Int)) :
    render_cols kernel color row l (s.set_threads ths)
      = (render_cols kernel color row l s).set_threads ths := by
  induction l generalizing s with
  | nil => rfl
  | cons c l ih =>
    simp only [render_cols, List.foldl_cons] at ih ⊢
    exact ih (render_pixel kernel color row c s)

theorem render_jobs_set_threads (kernel : Kernel) (jobs : List (Int × Int)) (s : State)
    (ths : List (WorkerKind × Int)) :
    render_jobs kernel jobs (s.set_threads ths) = (render_jobs kernel jobs s).set_threads ths := by
  induction jobs generalizing s with
  | nil => rfl
  | cons j jobs ih =>
    have e : render_row kernel j.1 j.2 (s.set_threads ths)
        = (render_row kernel j.1 j.2 s).set_threads ths := by
      rw [render_row_eq, render_row_eq]
      exact render_cols_set_threads kernel j.1 j.2 (cols s.image.width)
        { s with rows := s.rows ++ [j.2] } ths
    simp only [render_jobs, List.foldl_cons] at ih ⊢
    rw [e]
    exact ih (render_row kernel j.1 j.2 s)

/-! ## The workers and the thread loop as lists of jobs -/

theorem worker_dynamic_eq (kernel : Kernel) (t n : Int) (s : State) :
    worker_dynamic kernel t n s = render_jobs kernel (dynamic_jobs t n s.image.height) s := by
  unfold worker_dynamic render_jobs dynamic_jobs
  rw [List.foldl_map]
  exact for_loop_eq_foldl _ _ s.image.height n (fun st => st.image.height = s.image.height)
    (fun i st h => by simp [h])
    (fun i st h => ((render_row_frame kernel _ i st).1).trans h) _ _ _ rfl

theorem worker_static_eq (kernel : Kernel) (t n : Int) (s : State) :
    worker_static kernel t n s = render_jobs kernel (static_jobs t n s.image.height) s := by
  unfold worker_static render_jobs static_jobs
  rw [List.foldl_map]
  exact for_loop_eq_foldl _ _ _ 1 (fun _ => True) (fun i st h => rfl) (fun i st h => trivial) _ _ _
    trivial

theorem run_threads_eq (kernel : Kernel) (kind : WorkerKind) (worker : Int → Int → State → State)
    (jobs_of : Int → Int → List (Int × Int)) (n : Int)
    (hw : ∀ t st, worker t n st = render_jobs kernel (jobs_of t st.image.height) st) (s : State) :
    run_threads kind worker n s
      = (render_jobs kernel ((cols n).flatMap (fun t => jobs_of t s.image.height)) s).set_threads
          (s.threads ++ (cols n).map (fun t => (kind, t))) := by
  have key : ∀ (l : List Int) (st : State),
      l.foldl (fun st tid => worker tid n { st with threads := st.threads ++ [(kind, tid)] }) st
        = (render_jobs kernel (l.flatMap (fun t => jobs_of t st.image.height)) st).set_threads
            (st.threads ++ l.map (fun t => (kind, t))) := by
    intro l
    induction l with
    | nil => intro st; simp [render_jobs, State.set_threads]
    | cons t l ih =>
      intro st
      have e1 : worker t n { st with threads := st.threads ++ [(kind, t)] }
          = (render_jobs kernel (jobs_of t st.image.height) st).set_threads
              (st.threads ++ [(kind, t)]) := by
        rw [hw]
        exact render_jobs_set_threads kernel _ st _
      rw [List.foldl_cons, e1, ih, render_jobs_set_threads, List.flatMap_cons, render_jobs_append]
      have e2 : ((render_jobs kernel (jobs_of t st.image.height) st).set_threads
          (st.threads ++ [(kind, t)])).image.height = st.image.height :=
        (render_jobs_frame kernel _ st).1
      rw [e2]
      simp [State.set_threads]
  unfold run_threads
  rw [for_loop_eq_foldl _ _ n 1 (fun _ => True) (fun i st h => rfl) (fun i st h => trivial) _ _ _
    trivial]
  exact key (cols n) s

theorem run_static_eq (kernel : Kernel) (n : Int) (s : State) :
    run_static kernel n s
      = (render_jobs kernel ((cols n).flatMap (fun t => static_jobs t n s.image.height))
          s).set_threads (s.threads ++ (cols n).map (fun t => (WorkerKind.static, t))) :=
  run_threads_eq kernel _ _ (fun t h => static_jobs t n h) n
    (fun t st => worker_static_eq kernel t n st) s

/-! ## The loops leave by their own condition, not by the iteration bound -/

theorem render_row_fuel (kernel : Kernel) (color row : Int) (s : State) (extra : Nat) :
    for_loop (fun col st => decide (col < st.image.width)) (fun col => col + 1)
      (render_pixel kernel color row) (s.image.width.toNat + extra) 0
      { s with rows := s.rows ++ [row] }
      = render_row kernel color row s :=
  for_loop_extra_fuel _ _ s.image.width 1 (by omega) (fun st => st.image.width = s.image.width)
    (fun i st h => by simp [h]) (fun i st h => by simpa [render_pixel, Image.set] using h)
    _ 0 _ rfl (by omega) extra

theorem worker_static_fuel (kernel : Kernel) (t n : Int) (s : State) (extra : Nat) :
    for_loop (fun row _ => decide (row < (t + 1) * Int.tdiv s.image.height n))
      (fun row => row + 1) (render_row kernel (Int.tdiv (255 * t) n))
      (((t + 1) * Int.tdiv s.image.height n - t * Int.tdiv s.image.height n).toNat + extra)
      (t * Int.tdiv s.image.height n) s
      = worker_static kernel t n s :=
  for_loop_extra_fuel _ _ ((t + 1) * Int.tdiv s.image.height n) 1 (by omega) (fun _ => True)
    (fun i st h => rfl) (fun i st h => trivial) _ _ s trivial (le_refl _) extra

theorem worker_dynamic_fuel (kernel : Kernel) (t n : Int) (hn : 1 ≤ n) (s : State)
    (extra : Nat) :
    for_loop (fun row st => decide (row < st.image.height)) (fun row => row + n)
      (render_row kernel (Int.tdiv (255 * t) n)) ((s.image.height - t).toNat + extra) t s
      = worker_dynamic kernel t n s :=
  for_loop_extra_fuel _ _ s.image.height n (by omega)
    (fun st => st.image.height = s.image.height) (fun i st h => by simp [h])
    (fun i st h => ((render_row_frame kernel _ i st).1).trans h) _ t s rfl (le_refl _) extra

theorem run_threads_fuel (kind : WorkerKind) (worker : Int → Int → State → State) (n : Int)
    (s : State) (extra : Nat) :
    for_loop (fun tid _ => decide (tid < n)) (fun tid => tid + 1)
      (fun tid st => worker tid n { st with threads := st.threads ++ [(kind, tid)] })
      (n.toNat + extra) 0 s
      = run_threads kind worker n s :=
  for_loop_extra_fuel _ _ n 1 (by omega) (fun _ => True) (fun i st h => rfl)
    (fun i st h => trivial) _ 0 s trivial (by omega) extra

/-! ## The rows of the two partitions -/

theorem dynamic_jobs_rows (t n h : Int) (hn : 1 ≤ n) :
    (dynamic_jobs t n h).map Prod.snd = strided_rows t n h := by
  unfold dynamic_jobs strided_rows
  rw [List.map_map, loop_indices_closed h n (by omega) _ t (le_refl _)]
  simp [Function.comp_def]

theorem mem_strided_rows (t n h : Int) (hn : 1 ≤ n) (r : Int) :
    r ∈ strided_rows t n h ↔ r < h ∧ ∃ k : Nat, r = t + (k : Int) * n := by
  have e : strided_rows t n h = loop_indices h n (h - t).toNat t := by
    rw [loop_indices_closed h n (by omega) _ t (le_refl _)]; rfl
  rw [e, mem_loop_indices h n (by omega) _ t (le_refl _)]
  constructor
  · rintro ⟨k, hk, hr⟩; exact ⟨hr, k, hk⟩
  · rintro ⟨hr, k, hk⟩; exact ⟨k, hk, hr⟩

theorem strided_rows_sorted (t n h : Int) (hn : 1 ≤ n) :
    List.Sorted (· < ·) (strided_rows t n h) := by
  have e : strided_rows t n h = loop_indices h n (h - t).toNat t := by
    rw [loop_indices_closed h n (by omega) _ t (le_refl _)]; rfl
  rw [e]
  exact loop_indices_sorted h n (by omega) _ t (le_refl _)

theorem mem_strided_rows_iff_mod (t n h : Int) (hn : 1 ≤ n) (ht0 : 0 ≤ t) (htn : t < n)
    (r : Int) : r ∈ strided_rows t n h ↔ 0 ≤ r ∧ r < h ∧ r % n = t := by
  rw [mem_strided_rows t n h hn]
  constructor
  · rintro ⟨hr, k, rfl⟩
    have hk : 0 ≤ (k : Int) * n := by positivity
    refine ⟨by omega, hr, ?_⟩
    rw [Int.add_mul_emod_self, Int.emod_eq_of_lt ht0 htn]
  · rintro ⟨h0, hr, hm⟩
    refine ⟨hr, (r / n).toNat, ?_⟩
    have hq : 0 ≤ r / n := Int.ediv_nonneg h0 (by omega)
    have := Int.emod_add_ediv r n
    rw [Int.toNat_of_nonneg hq]
    linarith [mul_comm n (r / n)]

theorem static_jobs_rows (t n h : Int) (hn : 1 ≤ n) (hh : 0 ≤ h) :
    (static_jobs t n h).map Prod.snd = block_rows t (Int.tdiv h n) := by
  have hr : 0 ≤ Int.tdiv h n := by
    rw [Int.tdiv_eq_ediv hh (by omega)]; exact Int.ediv_nonneg hh (by omega)
  unfold static_jobs block_rows
  rw [List.map_map, loop_indices_closed _ 1 (by omega) _ _ (le_refl _)]
  have e : ((t + 1) * Int.tdiv h n - t * Int.tdiv h n + 1 - 1) / 1 = Int.tdiv h n := by
    rw [Int.ediv_one]; ring
  rw [e]
  simp [Function.comp_def]

theorem mem_block_rows (t rpt : Int) (r : Int) :
    r ∈ block_rows t rpt ↔ t * rpt ≤ r ∧ r < (t + 1) * rpt := by
  unfold block_rows
  simp only [List.mem_map, List.mem_range]
  constructor
  · rintro ⟨k, hk, rfl⟩
    constructor
    · omega
    · have : (t + 1) * rpt = t * rpt + rpt := by ring
      omega
  · rintro ⟨h1, h2⟩
    have : (t + 1) * rpt = t * rpt + rpt := by ring
    exact ⟨(r - t * rpt).toNat, by omega, by omega⟩

theorem block_rows_sorted (t rpt : Int) : List.Sorted (· < ·) (block_rows t rpt) := by
  unfold block_rows
  refine List.Pairwise.map _ ?_ (List.pairwise_lt_range _)
  intro a b hab
  have : (a : Int) < b := by exact_mod_cast hab
  omega

theorem block_rows_disjoint (t t' rpt : Int) (hr : 0 ≤ rpt) (hne : t ≠ t') :
    List.Disjoint (block_rows t rpt) (block_rows t' rpt) := by
  intro r h1 h2
  rw [mem_block_rows] at h1 h2
  rcases lt_or_gt_of_ne hne with h | h
  · have : (t + 1) * rpt ≤ t' * rpt := mul_le_mul_of_nonneg_right (by omega) hr
    omega
  · have : (t' + 1) * rpt ≤ t * rpt := mul_le_mul_of_nonneg_right (by omega) hr
    omega

theorem mem_some_block_rows (n rpt : Int) (hr : 0 ≤ rpt) (r : Int) :
    (∃ t, 0 ≤ t ∧ t < n ∧ r ∈ block_rows t rpt) ↔ 0 ≤ r ∧ r < n * rpt := by
  constructor
  · rintro ⟨t, ht0, htn, hm⟩
    rw [mem_block_rows] at hm
    have h1 : 0 ≤ t * rpt := mul_nonneg ht0 hr
    have h2 : (t + 1) * rpt ≤ n * rpt := mul_le_mul_of_nonneg_right (by omega) hr
    omega
  · rintro ⟨h0, h1⟩
    have hpos : 0 < rpt := by
      rcases eq_or_lt_of_le hr with h | h
      · rw [← h] at h1; simp at h1; omega
      · exact h
    refine ⟨r / rpt, Int.ediv_nonneg h0 hr, Int.ediv_lt_of_lt_mul hpos h1, ?_⟩
    rw [mem_block_rows]
    exact ⟨Int.ediv_mul_le r (by omega), Int.lt_ediv_add_one_mul_self r hpos⟩

theorem mem_row_range (m r : Int) : r ∈ row_range m ↔ 0 ≤ r ∧ r < m := by
  unfold row_range
  simp only [List.mem_map, List.mem_range]
  constructor
  · rintro ⟨k, hk, rfl⟩; omega
  · rintro ⟨h0, h1⟩; exact ⟨r.toNat, by omega, by omega⟩

theorem row_range_nodup (m : Int) : (row_range m).Nodup := by
  unfold row_range
  exact (List.nodup_range _).map (fun a b h => by exact_mod_cast h)

theorem cols_eq_row_range (w : Int) : cols w = row_range w := by
  unfold cols row_range
  rw [loop_indices_closed w 1 (by omega) _ 0 (by omega)]
  have : (w - 0 + 1 - 1) / 1 = w := by rw [Int.ediv_one]; ring
  rw [this]
  simp

theorem dynamic_all_rows (n h : Int) (hn : 1 ≤ n) :
    (dynamic_all n h).map Prod.snd = (cols n).flatMap (fun t => strided_rows t n h) := by
  unfold dynamic_all
  rw [List.map_flatMap]
  congr 1
  funext t
  exact dynamic_jobs_rows t n h hn

theorem static_all_rows (n h : Int) (hn : 1 ≤ n) (hh : 0 ≤ h) :
    (static_all n h).map Prod.snd = (cols n).flatMap (fun t => block_rows t (Int.tdiv h n)) := by
  unfold static_all
  rw [List.map_flatMap]
  congr 1
  funext t
  exact static_jobs_rows t n h hn hh

theorem tdiv_nonneg_of_nonneg (n h : Int) (hn : 1 ≤ n) (hh : 0 ≤ h) : 0 ≤ Int.tdiv h n := by
  rw [Int.tdiv_eq_ediv hh (by omega)]; exact Int.ediv_nonneg hh (by omega)

theorem dynamic_all_nodup (n h : Int) (hn : 1 ≤ n) : ((dynamic_all n h).map Prod.snd).Nodup := by
  rw [dynamic_all_rows n h hn, List.nodup_flatMap]
  refine ⟨fun t _ => (strided_rows_sorted t n h hn).nodup, ?_⟩
  refine (cols_nodup n).pairwise_of_forall_ne ?_
  intro a ha b hb hab r h1 h2
  rw [mem_cols] at ha hb
  rw [mem_strided_rows_iff_mod a n h hn ha.1 ha.2] at h1
  rw [mem_strided_rows_iff_mod b n h hn hb.1 hb.2] at h2
  exact hab (h1.2.2.symm.trans h2.2.2)

theorem static_all_nodup (n h : Int) (hn : 1 ≤ n) (hh : 0 ≤ h) :
    ((static_all n h).map Prod.snd).Nodup := by
  rw [static_all_rows n h hn hh, List.nodup_flatMap]
  refine ⟨fun t _ => (block_rows_sorted t _).nodup, ?_⟩
  refine (cols_nodup n).pairwise_of_forall_ne ?_
  intro a _ b _ hab
  exact block_rows_disjoint a b _ (tdiv_nonneg_of_nonneg n h hn hh) hab

theorem mem_dynamic_all_rows (n h : Int) (hn : 1 ≤ n) (r : Int) :
    r ∈ (dynamic_all n h).map Prod.snd ↔ 0 ≤ r ∧ r < h := by
  rw [dynamic_all_rows n h hn, List.mem_flatMap]
  constructor
  · rintro ⟨t, ht, hm⟩
    rw [mem_cols] at ht
    rw [mem_strided_rows_iff_mod t n h hn ht.1 ht.2] at hm
    exact ⟨hm.1, hm.2.1⟩
  · rintro ⟨h0, h1⟩
    have hm0 : 0 ≤ r % n := Int.emod_nonneg r (by omega)
    have hm1 : r % n < n := Int.emod_lt_of_pos r (by omega)
    refine ⟨r % n, (mem_cols n _).mpr ⟨hm0, hm1⟩, ?_⟩
    rw [mem_strided_rows_iff_mod _ n h hn hm0 hm1]
    exact ⟨h0, h1, rfl⟩

theorem mem_static_all_rows (n h : Int) (hn : 1 ≤ n) (hh : 0 ≤ h) (r : Int) :
    r ∈ (static_all n h).map Prod.snd ↔ 0 ≤ r ∧ r < n * Int.tdiv h n := by
  rw [static_all_rows n h hn hh, List.mem_flatMap,
    ← mem_some_block_rows n _ (tdiv_nonneg_of_nonneg n h hn hh) r]
  simp only [mem_cols, and_assoc]

theorem dynamic_all_perm (n h : Int) (hn : 1 ≤ n) :
    ((dynamic_all n h).map Prod.snd).Perm (row_range h) :=
  (List.perm_ext_iff_of_nodup (dynamic_all_nodup n h hn) (row_range_nodup h)).mpr
    (fun r => by rw [mem_dynamic_all_rows n h hn, mem_row_range])

theorem static_all_perm (n h : Int) (hn : 1 ≤ n) (hh : 0 ≤ h) :
    ((static_all n h).map Prod.snd).Perm (row_range (n * Int.tdiv h n)) :=
  (List.perm_ext_iff_of_nodup (static_all_nodup n h hn hh) (row_range_nodup _)).mpr
    (fun r => by rw [mem_static_all_rows n h hn hh, mem_row_range])

theorem run_static_rows (kernel : Kernel) (n : Int) (s : State) :
    (run_static kernel n s).rows = s.rows ++ (static_all n s.image.height).map Prod.snd := by
  rw [run_static_eq]
  exact (render_jobs_frame kernel _ s).2.2.1

/-! ## The image and the tally after a full render -/

theorem Image.ext_data (a b : Image) (hh : a.height = b.height) (hw : a.width = b.width)
    (hd : ∀ r c, a.data r c = b.data r c) : a = b := by
  cases a with
  | mk ah aw ad =>
    cases b with
    | mk bh bw bd =>
      simp only [Image.mk.injEq]
      exact ⟨hh, hw, funext fun r => funext fun c => hd r c⟩

theorem worker_static_count (kernel : Kernel) (t n : Int) (hn : 1 ≤ n) (s : State)
    (hh : 0 ≤ s.image.height) :
    (worker_static kernel t n s).pixels_inside
      = s.pixels_inside
        + (((static_jobs t n s.image.height).map
            (fun j => row_count kernel s.image j.1 j.2)).sum : Nat) := by
  rw [worker_static_eq]
  refine render_jobs_count kernel _ ?_ s
  rw [static_jobs_rows t n _ hn hh]
  exact (block_rows_sorted t _).nodup

theorem render_pixels_append (kernel : Kernel) (color : Int) (a b : List (Int × Int))
    (s : State) :
    render_pixels kernel color (a ++ b) s
      = render_pixels kernel color b (render_pixels kernel color a s) := by
  simp [render_pixels, List.foldl_append]

theorem render_pixels_set_rows (kernel : Kernel) (color : Int) (l : List (Int × Int))
    (s : State) (rows : List Int) :
    render_pixels kernel color l (s.set_rows rows)
      = (render_pixels kernel color l s).set_rows rows := by
  induction l generalizing s with
  | nil => rfl
  | cons p l ih =>
    simp only [render_pixels, List.foldl_cons] at ih ⊢
    exact ih (render_pixel kernel color p.1 p.2 s)

theorem render_pixels_width (kernel : Kernel) (color : Int) (l : List (Int × Int))
    (s : State) : (render_pixels kernel color l s).image.width = s.image.width := by
  induction l generalizing s with
  | nil => rfl
  | cons p l ih =>
    simp only [render_pixels, List.foldl_cons] at ih ⊢
    rw [ih]
    rfl

theorem render_row_eq_pixels (kernel : Kernel) (color row : Int) (s : State) :
    render_row kernel color row s
      = (render_pixels kernel color ((row_range s.image.width).map (fun c => (row, c)))
          s).set_rows (s.rows ++ [row]) := by
  rw [render_row_eq, ← render_pixels_set_rows, cols_eq_row_range]
  unfold render_cols render_pixels
  rw [List.foldl_map]
  rfl

theorem render_jobs_eq_pixels (kernel : Kernel) (color : Int) (rows : List Int) (s : State) :
    render_jobs kernel (rows.map (fun r => (color, r))) s
      = (render_pixels kernel color (pixels_of_rows rows s.image.width) s).set_rows
          (s.rows ++ rows) := by
  induction rows generalizing s with
  | nil => simp [render_jobs, render_pixels, pixels_of_rows, State.set_rows]
  | cons r rows ih =>
    have e : render_jobs kernel ((r :: rows).map (fun r => (color, r))) s
        = render_jobs kernel (rows.map (fun r => (color, r))) (render_row kernel color r s) := rfl
    rw [e, ih, render_row_eq_pixels, render_pixels_set_rows]
    have hw : ((render_pixels kernel color ((row_range s.image.width).map (fun c => (r, c)))
        s).set_rows (s.rows ++ [r])).image.width = s.image.width :=
      render_pixels_width kernel color _ s
    rw [hw]
    simp only [pixels_of_rows, List.flatMap_cons, render_pixels_append]
    simp [State.set_rows]

/-! ## Pixel accesses and execution order -/

theorem render_jobs_accesses (kernel : Kernel) (color : Int) (rows : List Int) (s : State) :
    (render_jobs kernel (rows.map (fun r => (color, r))) s).accesses
      = s.accesses ++ pixels_of_rows rows s.image.width := by
  rw [(render_jobs_frame kernel _ s).2.2.2.2, cols_eq_row_range]
  unfold pixels_of_rows
  rw [List.flatMap_map]

theorem render_pixel_fix_seed (kernel : Kernel) (c : Int) :
    render_pixel (fun p px _ => kernel p px c) c = render_pixel kernel c := rfl

theorem render_row_fix_seed (kernel : Kernel) (c : Int) :
    render_row (fun p px _ => kernel p px c) c = render_row kernel c := by
  funext row s
  unfold render_row
  rw [render_pixel_fix_seed]

theorem worker_static_accesses (kernel : Kernel) (t n : Int) (s : State) (hn : 1 ≤ n)
    (hh : 0 ≤ s.image.height) :
    (worker_static kernel t n s).accesses
      = s.accesses ++ pixels_of_rows (block_rows t (Int.tdiv s.image.height n)) s.image.width := by
  rw [worker_static_eq, ← static_jobs_rows t n _ hn hh]
  unfold static_jobs
  rw [render_jobs_accesses, List.map_map]
  simp [Function.comp_def]

theorem worker_dynamic_accesses (kernel : Kernel) (t n : Int) (s : State) (hn : 1 ≤ n) :
    (worker_dynamic kernel t n s).accesses
      = s.accesses ++ pixels_of_rows (strided_rows t n s.image.height) s.image.width := by
  rw [worker_dynamic_eq, ← dynamic_jobs_rows t n _ hn]
  unfold dynamic_jobs
  rw [render_jobs_accesses, List.map_map]
  simp [Function.comp_def]

theorem seed_bounds (t n : Int) (hn : 1 ≤ n) (ht0 : 0 ≤ t) (htn : t < n) :
    Int.tdiv (255 * t) n = 255 * t / n ∧ 0 ≤ Int.tdiv (255 * t) n
      ∧ Int.tdiv (255 * t) n ≤ 254 := by
  have e : Int.tdiv (255 * t) n = 255 * t / n := Int.tdiv_eq_ediv (by omega) (by omega)
  have h1 : 0 ≤ 255 * t / n := Int.ediv_nonneg (by omega) (by omega)
  have h2 : 255 * t / n < 255 := Int.ediv_lt_of_lt_mul (by omega) (by omega)
  rw [e]
  exact ⟨rfl, h1, by omega⟩

theorem run_threads_threads (kernel : Kernel) (kind : WorkerKind)
    (worker : Int → Int → State → State) (jobs_of : Int → Int → List (Int × Int)) (n : Int)
    (hw : ∀ t st, worker t n st = render_jobs kernel (jobs_of t st.image.height) st)
    (s : State) :
    (run_threads kind worker n s).threads
      = s.threads ++ (row_range n).map (fun t => (kind, t)) := by
  rw [run_threads_eq kernel kind worker jobs_of n hw s, cols_eq_row_range]
  rfl

theorem strided_rows_length (t n h : Int) :
    (strided_rows t n h).length = ((h - t + n - 1) / n).toNat := by
  simp [strided_rows]

theorem strided_count_le_succ (t t' n h : Int) (hn : 1 ≤ n) (ht0 : 0 ≤ t) (htn' : t' < n) :
    (h - t + n - 1) / n ≤ (h - t' + n - 1) / n + 1 := by
  have e : (h - t' + n - 1) / n + 1 = (h - t' + n - 1 + n) / n := by
    rw [Int.add_ediv_of_dvd_right (dvd_refl n), Int.ediv_self (by omega)]
  rw [e]
  exact Int.ediv_le_ediv (by omega) (by omega)

theorem strided_count_eq_ceil (t n h : Int) (hn : 1 ≤ n) :
    (h - t + n - 1) / n = ⌈(((h - t : Int) : ℚ)) / ((n : Int) : ℚ)⌉ := by
  symm
  rw [Int.ceil_eq_iff]
  have hn' : (0 : ℚ) < ((n : Int) : ℚ) := by exact_mod_cast (by omega : 0 < n)
  have h1 : (h - t + n - 1) / n * n ≤ h - t + n - 1 := Int.ediv_mul_le _ (by omega)
  have h2 : h - t + n - 1 < ((h - t + n - 1) / n + 1) * n :=
    Int.lt_ediv_add_one_mul_self _ (by omega)
  constructor
  · rw [lt_div_iff₀ hn']
    have : ((h - t + n - 1) / n - 1) * n < h - t := by linarith
    exact_mod_cast this
  · rw [div_le_iff₀ hn']
    have : h - t ≤ (h - t + n - 1) / n * n := by linarith
    exact_mod_cast this

theorem full_image_zero_rows (kernel : Kernel) (img : Image) (f : Int → Int) :
    full_image kernel img f 0 = img := by
  refine Image.ext_data _ _ rfl rfl ?_
  intro r c
  have : ¬ (0 ≤ r ∧ r < 0 ∧ 0 ≤ c ∧ c < img.width) := by omega
  simp only [full_image, this, if_false]

/-! ## The workers in 32-bit arithmetic -/

theorem wrap32_of_range (x : Int) (h1 : -2147483648 ≤ x) (h2 : x ≤ 2147483647) :
    wrap32 x = x := by
  unfold wrap32
  omega

/-- The row arithmetic of `worker_static` stays within `int`: for
`0 ≤ t < n` and a height `h` with `0 ≤ h ≤ 2147483647`, the values
`h / n`, `t + 1`, `t * (h / n)`, `(t + 1) * (h / n)` and every `row + 1` with
`row < (t + 1) * (h / n)` lie in `[0, 2147483647]`. -/
theorem static_arithmetic_in_range (t n h : Int) (hn : 1 ≤ n) (ht0 : 0 ≤ t) (htn : t < n)
    (hh : 0 ≤ h) (hmax : h ≤ 2147483647) (hnmax : n ≤ 2147483647) :
    0 ≤ Int.tdiv h n ∧ Int.tdiv h n ≤ 2147483647
    ∧ 0 ≤ t + 1 ∧ t + 1 ≤ 2147483647
    ∧ 0 ≤ t * Int.tdiv h n ∧ t * Int.tdiv h n ≤ 2147483647
    ∧ 0 ≤ (t + 1) * Int.tdiv h n ∧ (t + 1) * Int.tdiv h n ≤ 2147483647
    ∧ (∀ row, t * Int.tdiv h n ≤ row → row < (t + 1) * Int.tdiv h n →
        0 ≤ row + 1 ∧ row + 1 ≤ 2147483647) := by
  have hr := tdiv_nonneg_of_nonneg n h hn hh
  have hle : n * Int.tdiv h n ≤ h := by
    rw [Int.tdiv_eq_ediv hh (by omega)]
    exact Int.mul_ediv_self_le (by omega)
  have h1 : 0 ≤ t * Int.tdiv h n := mul_nonneg ht0 hr
  have h2 : (t + 1) * Int.tdiv h n ≤ n * Int.tdiv h n :=
    mul_le_mul_of_nonneg_right (by omega) hr
  have h3 : t * Int.tdiv h n ≤ (t + 1) * Int.tdiv h n :=
    mul_le_mul_of_nonneg_right (by omega) hr
  have h4 : 1 * Int.tdiv h n ≤ n * Int.tdiv h n := mul_le_mul_of_nonneg_right hn hr
  refine ⟨hr, by omega, by omega, by omega, h1, by omega, by omega, by omega, ?_⟩
  intro row hr1 hr2
  omega

theorem for_loop_eq_foldl_trace {σ : Type} (cond : Int → σ → Bool) (body : Int → σ → σ)
    (bound : Int) (next : Int → Int) (P : σ → Prop)
    (hc : ∀ i s, P s → cond i s = decide (i < bound))
    (hP : ∀ i s, P s → P (body i s)) :
    ∀ (fuel : Nat) (i : Int) (s : σ), P s →
      for_loop cond next body fuel i s
        = (loop_trace bound next fuel i).foldl (fun st r => body r st) s := by
  intro fuel
  induction fuel with
  | zero => intro i s _; rfl
  | succ fuel ih =>
    intro i s hs
    by_cases hi : i < bound
    · simp [for_loop, loop_trace, hc i s hs, hi, ih (next i) (body i s) (hP i s hs)]
    · simp [for_loop, loop_trace, hc i s hs, hi]

/-- While `bound + n ≤ 2^31`, the wrapping step `row += n` never wraps on the
way from a start `i ≥ 0` to the bound. -/
theorem loop_trace_wrap (bound n : Int) (hn : 1 ≤ n) (hov : bound + n ≤ 2147483648) :
    ∀ (fuel : Nat) (i : Int), 0 ≤ i →
      loop_trace bound (fun row => wrap32 (row + n)) fuel i = loop_indices bound n fuel i := by
  intro fuel
  induction fuel with
  | zero => intro i _; rfl
  | succ fuel ih =>
    intro i hi
    by_cases hb : i < bound
    · have e : wrap32 (i + n) = i + n := wrap32_of_range _ (by omega) (by omega)
      simp only [loop_trace, loop_indices, hb, if_true, e]
      rw [← e, ih (wrap32 (i + n)) (by rw [e]; omega), e]
    · simp [loop_trace, loop_indices, hb]

theorem flatMap_congr_mem {α β : Type} (l : List α) (f g : α → List β)
    (h : ∀ a ∈ l, f a = g a) : l.flatMap f = l.flatMap g := by
  induction l with
  | nil => rfl
  | cons a l ih =>
    rw [List.flatMap_cons, List.flatMap_cons, h a (List.mem_cons_self a l),
      ih (fun b hb => h b (List.mem_cons_of_mem a hb))]

theorem render_const_jobs_rows (kernel : Kernel) (c : Int) (rows : List Int) (s : State) :
    (render_jobs kernel (rows.map (fun r => (c, r))) s).rows = s.rows ++ rows := by
  rw [(render_jobs_frame kernel _ s).2.2.1, List.map_map]
  simp [Function.comp_def]

theorem render_const_jobs_pixel (kernel : Kernel) (c : Int) (rows : List Int)
    (hnd : rows.Nodup) (s : State) (r col : Int) (hr : r ∈ rows) (hc0 : 0 ≤ col)
    (hcw : col < s.image.width) :
    (render_jobs kernel (rows.map (fun r => (c, r))) s).image.data r col
      = (kernel (point s.image r col) (s.image.data r col) c).1 := by
  have hnd' : ((rows.map (fun r => (c, r))).map Prod.snd).Nodup := by
    rw [List.map_map]
    simpa [Function.comp_def] using hnd
  exact render_jobs_data kernel _ hnd' s (c, r) (List.mem_map_of_mem _ hr) col hc0 hcw

theorem i32_worker_static_jobs (kernel : Kernel) (t n : Int) (s : State) :
    I32.worker_static kernel t n s
      = render_jobs kernel
          (((static_jobs t n s.image.height).map Prod.snd).map (fun r => (I32.seed t n, r)))
          s := by
  unfold I32.worker_static render_jobs static_jobs I32.seed
  rw [List.map_map, List.foldl_map, List.foldl_map]
  exact for_loop_eq_foldl _ _ _ 1 (fun _ => True) (fun i st h => rfl) (fun i st h => trivial) _ _ _
    trivial

theorem i32_worker_dynamic_trace (kernel : Kernel) (fuel : Nat) (t n : Int) (s : State) :
    I32.worker_dynamic kernel fuel t n s
      = render_jobs kernel
          ((loop_trace s.image.height (fun row => wrap32 (row + n)) fuel t).map
            (fun r => (I32.seed t n, r))) s := by
  unfold I32.worker_dynamic render_jobs I32.seed
  rw [List.foldl_map]
  exact for_loop_eq_foldl_trace _ _ s.image.height _
    (fun st => st.image.height = s.image.height) (fun i st h => by simp [h])
    (fun i st h => ((render_row_frame kernel _ i st).1).trans h) _ _ _ rfl

theorem i32_dynamic_trace_eq (t n h : Int) (fuel : Nat) (hn : 1 ≤ n) (ht0 : 0 ≤ t)
    (hov : h + n ≤ 2147483648) (hf : h.toNat ≤ fuel) :
    loop_trace h (fun row => wrap32 (row + n)) fuel t = strided_rows t n h := by
  rw [loop_trace_wrap h n hn hov fuel t ht0,
    loop_indices_closed h n (by omega) fuel t (by omega)]
  rfl

theorem i32_worker_dynamic_jobs (kernel : Kernel) (fuel : Nat) (t n : Int) (s : State)
    (hn : 1 ≤ n) (ht0 : 0 ≤ t) (hov : s.image.height + n ≤ 2147483648)
    (hf : s.image.height.toNat ≤ fuel) :
    I32.worker_dynamic kernel fuel t n s
      = render_jobs kernel
          ((strided_rows t n s.image.height).map (fun r => (I32.seed t n, r))) s := by
  rw [i32_worker_dynamic_trace, i32_dynamic_trace_eq t n _ fuel hn ht0 hov hf]

/-- While `255 * t` fits a 32-bit `int`, `worker_static` in 32-bit
arithmetic is the idealised `worker_static`. -/
theorem i32_worker_static_eq_ideal (kernel : Kernel) (t n : Int) (s : State) (ht0 : 0 ≤ t)
    (hs : 255 * t ≤ 2147483647) :
    I32.worker_static kernel t n s = worker_static kernel t n s := by
  unfold I32.worker_static worker_static
  rw [wrap32_of_range (255 * t) (by omega) hs]

/-- While `255 * t` and `height + n` fit a 32-bit `int` and the iteration bound
is at least the height, `worker_dynamic` in 32-bit arithmetic is the idealised
`worker_dynamic`. -/
theorem i32_worker_dynamic_eq_ideal (kernel : Kernel) (fuel : Nat) (t n : Int) (s : State)
    (hn : 1 ≤ n) (ht0 : 0 ≤ t) (hs : 255 * t ≤ 2147483647)
    (hov : s.image.height + n ≤ 2147483648) (hf : s.image.height.toNat ≤ fuel) :
    I32.worker_dynamic kernel fuel t n s = worker_dynamic kernel t n s := by
  rw [i32_worker_dynamic_jobs kernel fuel t n s hn ht0 hov hf, worker_dynamic_eq]
  unfold dynamic_jobs I32.seed seed
  rw [wrap32_of_range (255 * t) (by omega) hs,
    loop_indices_closed s.image.height n (by omega) _ t (le_refl _)]
  rfl

theorem i32_run_dynamic_rows (kernel : Kernel) (fuel : Nat) (n : Int) (s : State)
    (hn : 1 ≤ n) (hov : s.image.height + n ≤ 2147483648) (hf : s.image.height.toNat ≤ fuel) :
    (I32.run_dynamic kernel fuel n s).rows
      = s.rows ++ (cols n).flatMap (fun t => strided_rows t n s.image.height) := by
  unfold I32.run_dynamic
  rw [run_threads_eq kernel _ _
    (fun t h => (loop_trace h (fun row => wrap32 (row + n)) fuel t).map
      (fun r => (I32.seed t n, r))) n
    (fun t st => i32_worker_dynamic_trace kernel fuel t n st) s]
  have e := (render_jobs_frame kernel
    ((cols n).flatMap (fun t => (loop_trace s.image.height (fun row => wrap32 (row + n))
      fuel t).map (fun r => (I32.seed t n, r)))) s).2.2.1
  have e2 : ((cols n).flatMap (fun t => (loop_trace s.image.height
      (fun row => wrap32 (row + n)) fuel t).map (fun r => (I32.seed t n, r)))).map Prod.snd
      = (cols n).flatMap (fun t => strided_rows t n s.image.height) := by
    rw [List.map_flatMap]
    apply flatMap_congr_mem
    intro t ht
    rw [mem_cols] at ht
    rw [List.map_map, i32_dynamic_trace_eq t n _ fuel hn ht.1 hov hf]
    simp [Function.comp_def]
  rw [← e2, ← e]
  rfl

theorem strided_all_perm (n h : Int) (hn : 1 ≤ n) :
    ((cols n).flatMap (fun t => strided_rows t n h)).Perm (row_range h) := by
  rw [← dynamic_all_rows n h hn]
  exact dynamic_all_perm n h hn

theorem i32_worker_static_rows (kernel : Kernel) (t n : Int) (s : State) (hn : 1 ≤ n)
    (hh : 0 ≤ s.image.height) :
    I32.worker_static kernel t n s
      = render_jobs kernel
          ((block_rows t (Int.tdiv s.image.height n)).map (fun r => (I32.seed t n, r))) s := by
  rw [i32_worker_static_jobs, static_jobs_rows t n _ hn hh]

theorem i32_seed_eq (t n : Int) (ht0 : 0 ≤ t) (hs : 255 * t ≤ 2147483647) :
    I32.seed t n = Int.tdiv (255 * t) n := by
  unfold I32.seed
  rw [wrap32_of_range (255 * t) (by omega) hs]

/-! ## C1: dynamic partitioning -/

/-- C1, counterexample: for thread id 1 of 2147483647 threads on an image of
height 2, the step `row += num_threads` leaves the range of `int`; in 32-bit
arithmetic the row loop of `worker_dynamic` goes on after row 1 and visits the
rows `1, -2147483648, -1` (the same for every larger iteration bound), not the
strided sequence below the height, which is `[1]`. -/
theorem dynamic_rows_overflow_counterexample :
    (1 : Int) ≤ 2147483647 ∧ (0 : Int) ≤ 1 ∧ (1 : Int) < 2147483647
    ∧ 0 ≤ (initial_state 2 1).image.height
    ∧ strided_rows 1 2147483647 (initial_state 2 1).image.height = [1]
    ∧ (I32.worker_dynamic kAll 10 1 2147483647 (initial_state 2 1)).rows
        = [1, -2147483648, -1]
    ∧ (I32.worker_dynamic kAll 11 1 2147483647 (initial_state 2 1)).rows
        = [1, -2147483648, -1]
    ∧ (I32.worker_dynamic kAll 10 1 2147483647 (initial_state 2 1)).rows
        ≠ (initial_state 2 1).rows
            ++ strided_rows 1 2147483647 (initial_state 2 1).image.height := by
  decide

/-- C1, amended: for `n ≥ 1` and a height `h` with `h + n ≤ 2^31` (so that
`row += num_threads` stays within `int`), and every iteration bound `≥ h`,
`worker_dynamic` with thread id `t` (`0 ≤ t < n`) appends to the row log exactly
the strided sequence `t, t + n, t + 2n, …` below the height, which is strictly
increasing (so each row occurs once) and consists of the rows `t + k * n` below
the height; a row `r` of `[0, h)` belongs to the sequence of thread id `t`
exactly when `t = r mod n`; and the full dynamic render visits a permutation of
the rows `0 .. h - 1`. -/
theorem dynamic_partition_covers_once (kernel : Kernel) (s : State) (n : Int) (fuel : Nat)
    (hn : 1 ≤ n) (hov : s.image.height + n ≤ 2147483648)
    (hf : s.image.height.toNat ≤ fuel) :
    (∀ t, 0 ≤ t → t < n →
      (I32.worker_dynamic kernel fuel t n s).rows
        = s.rows ++ strided_rows t n s.image.height
      ∧ List.Sorted (· < ·) (strided_rows t n s.image.height)
      ∧ ∀ r, r ∈ strided_rows t n s.image.height
          ↔ r < s.image.height ∧ ∃ k : Nat, r = t + (k : Int) * n)
    ∧ (∀ r, 0 ≤ r → r < s.image.height → ∀ t, 0 ≤ t → t < n →
        (r ∈ strided_rows t n s.image.height ↔ t = r % n))
    ∧ ∃ l, (I32.run_dynamic kernel fuel n s).rows = s.rows ++ l
        ∧ l.Perm (row_range s.image.height) := by
  refine ⟨?_, ?_, ?_⟩
  · intro t ht0 _
    refine ⟨?_, strided_rows_sorted t n _ hn, mem_strided_rows t n _ hn⟩
    rw [i32_worker_dynamic_jobs kernel fuel t n s hn ht0 hov hf, render_const_jobs_rows]
  · intro r h0 h1 t ht0 htn
    rw [mem_strided_rows_iff_mod t n _ hn ht0 htn]
    constructor
    · rintro ⟨-, -, h⟩; exact h.symm
    · intro h; exact ⟨h0, h1, h.symm⟩
  · exact ⟨_, i32_run_dynamic_rows kernel fuel n s hn hov hf, strided_all_perm n _ hn⟩

/-- C1 as amended, instance: three dynamic workers on the zero image of height
7 and width 2, iteration bound 7. -/
theorem dynamic_partition_covers_once_witness :
    (1 : Int) ≤ 3 ∧ (initial_state 7 2).image.height + 3 ≤ 2147483648
    ∧ (initial_state 7 2).image.height.toNat ≤ 7
    ∧ ((∀ t, 0 ≤ t → t < (3 : Int) →
        (I32.worker_dynamic kAll 7 t 3 (initial_state 7 2)).rows
          = (initial_state 7 2).rows ++ strided_rows t 3 (initial_state 7 2).image.height
        ∧ List.Sorted (· < ·) (strided_rows t 3 (initial_state 7 2).image.height)
        ∧ ∀ r, r ∈ strided_rows t 3 (initial_state 7 2).image.height
            ↔ r < (initial_state 7 2).image.height ∧ ∃ k : Nat, r = t + (k : Int) * 3)
      ∧ (∀ r, 0 ≤ r → r < (initial_state 7 2).image.height → ∀ t, 0 ≤ t → t < (3 : Int) →
          (r ∈ strided_rows t 3 (initial_state 7 2).image.height ↔ t = r % 3))
      ∧ ∃ l, (I32.run_dynamic kAll 7 3 (initial_state 7 2)).rows
            = (initial_state 7 2).rows ++ l
          ∧ l.Perm (row_range (initial_state 7 2).image.height)) :=
  ⟨by decide, by decide, by decide,
    dynamic_partition_covers_once kAll (initial_state 7 2) 3 7 (by decide) (by decide)
      (by decide)⟩

/-! ## C2: static partitioning -/

/-- C2: for `n ≥ 1` and height `h ≥ 0`, with `rpt = h / n`, `worker_static` with
thread id `t` (`0 ≤ t < n`) appends to the row log exactly the contiguous rows
`t * rpt, …, (t + 1) * rpt - 1`; the blocks of two different thread ids are
disjoint; a row lies in some block exactly when it lies in `[0, n * rpt)`;
`n * rpt ≤ h`; the rows `n * rpt .. h - 1` are visited by no thread; and the
full static render visits a permutation of the rows `0 .. n * rpt - 1`. -/
theorem static_partition_blocks (kernel : Kernel) (s : State) (n : Int) (hn : 1 ≤ n)
    (hh : 0 ≤ s.image.height) :
    (∀ t, 0 ≤ t → t < n →
      (worker_static kernel t n s).rows
        = s.rows ++ block_rows t (Int.tdiv s.image.height n)
      ∧ ∀ r, r ∈ block_rows t (Int.tdiv s.image.height n)
          ↔ t * Int.tdiv s.image.height n ≤ r ∧ r < (t + 1) * Int.tdiv s.image.height n)
    ∧ (∀ t t', 0 ≤ t → t < n → 0 ≤ t' → t' < n → t ≠ t' →
        List.Disjoint (block_rows t (Int.tdiv s.image.height n))
          (block_rows t' (Int.tdiv s.image.height n)))
    ∧ (∀ r, (∃ t, 0 ≤ t ∧ t < n ∧ r ∈ block_rows t (Int.tdiv s.image.height n))
        ↔ 0 ≤ r ∧ r < n * Int.tdiv s.image.height n)
    ∧ n * Int.tdiv s.image.height n ≤ s.image.height
    ∧ (∀ r, n * Int.tdiv s.image.height n ≤ r → r < s.image.height →
        ∀ t, 0 ≤ t → t < n → r ∉ block_rows t (Int.tdiv s.image.height n))
    ∧ ∃ l, (run_static kernel n s).rows = s.rows ++ l
        ∧ l.Perm (row_range (n * Int.tdiv s.image.height n)) := by
  have hr := tdiv_nonneg_of_nonneg n _ hn hh
  refine ⟨?_, ?_, ?_, ?_, ?_, ?_⟩
  · intro t _ _
    refine ⟨?_, mem_block_rows t _⟩
    rw [worker_static_eq, (render_jobs_frame kernel _ s).2.2.1, static_jobs_rows t n _ hn hh]
  · intro t t' _ _ _ _ hne
    exact block_rows_disjoint t t' _ hr hne
  · exact mem_some_block_rows n _ hr
  · rw [Int.tdiv_eq_ediv hh (by omega)]
    exact Int.mul_ediv_self_le (by omega)
  · intro r h1 _ t ht0 htn hm
    have := (mem_some_block_rows n _ hr r).mp ⟨t, ht0, htn, hm⟩
    omega
  · exact ⟨_, run_static_rows kernel n s, static_all_perm n _ hn hh⟩

/-- C2, instance: four static workers on the zero image of height 10 and width 1. -/
theorem static_partition_blocks_witness :
    (1 : Int) ≤ 4 ∧ 0 ≤ (initial_state 10 1).image.height
    ∧ ((∀ t, 0 ≤ t → t < (4 : Int) →
        (worker_static kAll t 4 (initial_state 10 1)).rows
          = (initial_state 10 1).rows ++ block_rows t (Int.tdiv (initial_state 10 1).image.height 4)
        ∧ ∀ r, r ∈ block_rows t (Int.tdiv (initial_state 10 1).image.height 4)
            ↔ t * Int.tdiv (initial_state 10 1).image.height 4 ≤ r
              ∧ r < (t + 1) * Int.tdiv (initial_state 10 1).image.height 4)
      ∧ (∀ t t', 0 ≤ t → t < (4 : Int) → 0 ≤ t' → t' < (4 : Int) → t ≠ t' →
          List.Disjoint (block_rows t (Int.tdiv (initial_state 10 1).image.height 4))
            (block_rows t' (Int.tdiv (initial_state 10 1).image.height 4)))
      ∧ (∀ r, (∃ t, 0 ≤ t ∧ t < (4 : Int)
            ∧ r ∈ block_rows t (Int.tdiv (initial_state 10 1).image.height 4))
          ↔ 0 ≤ r ∧ r < 4 * Int.tdiv (initial_state 10 1).image.height 4)
      ∧ 4 * Int.tdiv (initial_state 10 1).image.height 4 ≤ (initial_state 10 1).image.height
      ∧ (∀ r, 4 * Int.tdiv (initial_state 10 1).image.height 4 ≤ r →
          r < (initial_state 10 1).image.height →
          ∀ t, 0 ≤ t → t < (4 : Int) →
            r ∉ block_rows t (Int.tdiv (initial_state 10 1).image.height 4))
      ∧ ∃ l, (run_static kAll 4 (initial_state 10 1)).rows = (initial_state 10 1).rows ++ l
          ∧ l.Perm (row_range (4 * Int.tdiv (initial_state 10 1).image.height 4))) :=
  ⟨by decide, by decide,
    static_partition_blocks kAll (initial_state 10 1) 4 (by decide) (by decide)⟩

/-! ## C3: partition invariance -/

/-- C6: with one thread, `worker_static` and `worker_dynamic` for thread id 0
produce the image, the counter and the sequence of pixel accesses of the
single-threaded reference render (kernel with seed 0 on every pixel of the
rows `0 .. height-1`, in row-major order), and the two workers produce the same
state. -/
theorem single_thread_is_sequential (kernel : Kernel) (s : State) :
    (worker_static kernel 0 1 s).image = (render_sequential kernel s).image
    ∧ (worker_static kernel 0 1 s).pixels_inside = (render_sequential kernel s).pixels_inside
    ∧ (worker_static kernel 0 1 s).accesses = (render_sequential kernel s).accesses
    ∧ (worker_dynamic kernel 0 1 s).image = (render_sequential kernel s).image
    ∧ (worker_dynamic kernel 0 1 s).pixels_inside = (render_sequential kernel s).pixels_inside
    ∧ (worker_dynamic kernel 0 1 s).accesses = (render_sequential kernel s).accesses
    ∧ worker_static kernel 0 1 s = worker_dynamic kernel 0 1 s := by
  have hs : static_jobs 0 1 s.image.height
      = (row_range s.image.height).map (fun r => ((0 : Int), r)) := by
    unfold static_jobs seed
    simp only [Int.tdiv_one, zero_add, one_mul, zero_mul, sub_zero, mul_zero, Int.zero_tdiv]
    rw [← cols_eq_row_range]
    rfl
  have hd : dynamic_jobs 0 1 s.image.height
      = (row_range s.image.height).map (fun r => ((0 : Int), r)) := by
    unfold dynamic_jobs seed
    simp only [sub_zero, mul_zero, Int.zero_tdiv]
    rw [← cols_eq_row_range]
    rfl
  have es : worker_static kernel 0 1 s
      = (render_sequential kernel s).set_rows (s.rows ++ row_range s.image.height) := by
    rw [worker_static_eq, hs, render_jobs_eq_pixels]
    rfl
  have ed : worker_dynamic kernel 0 1 s
      = (render_sequential kernel s).set_rows (s.rows ++ row_range s.image.height) := by
    rw [worker_dynamic_eq, hd, render_jobs_eq_pixels]
    rfl
  refine ⟨?_, ?_, ?_, ?_, ?_, ?_, ?_⟩
  · rw [es]; rfl
  · rw [es]; rfl
  · rw [es]; rfl
  · rw [ed]; rfl
  · rw [ed]; rfl
  · rw [ed]; rfl
  · rw [es, ed]

/-! ## C7: thread count below 1 -/

/-- C7, counterexample: with `num_threads = 0` (and likewise `-3`) `main` does
not fail: it returns exit status 0, hands an image to `save_to_ppm` and prints
the pixel count 0. -/
theorem invalid_thread_count_counterexample :
    (0 : Int) < 1
    ∧ (main kAll ⟨0, "static", 2, 2, 2⟩).exit_status = 0
    ∧ (main kAll ⟨0, "static", 2, 2, 2⟩).saved.isSome = true
    ∧ (main kAll ⟨0, "static", 2, 2, 2⟩).printed_pixels = some 0
    ∧ (main kAll ⟨-3, "dynamic", 2, 2, 2⟩).exit_status = 0
    ∧ (main kAll ⟨-3, "dynamic", 2, 2, 2⟩).printed_pixels = some 0 := by
  decide

/-- C7, amended: when `main` receives `num_threads < 1` with the policy
`"static"` or `"dynamic"`, it creates no thread, visits no row and calls the
kernel for no pixel, and then completes normally: exit status 0, the
untouched zero-initialised image is saved, and the pixel count 0 is printed
when `print_level ≥ 1`. -/
theorem thread_count_below_one_renders_nothing (kernel : Kernel) (cfg : Config)
    (hn : cfg.num_threads < 1)
    (hp : cfg.work_allocation = "static" ∨ cfg.work_allocation = "dynamic") :
    (main kernel cfg).state = initial_state cfg.height cfg.width
    ∧ (main kernel cfg).state.threads = []
    ∧ (main kernel cfg).state.rows = []
    ∧ (main kernel cfg).state.accesses = []
    ∧ (main kernel cfg).exit_status = 0
    ∧ (main kernel cfg).saved = some (Image.zero cfg.height cfg.width)
    ∧ (main kernel cfg).printed_pixels = (if cfg.print_level ≥ 1 then some 0 else none) := by
  have h0 : cfg.num_threads.toNat = 0 := Int.toNat_eq_zero.mpr (by omega)
  have e1 : run_static kernel cfg.num_threads (initial_state cfg.height cfg.width)
      = initial_state cfg.height cfg.width := by
    unfold run_static run_threads
    rw [h0]
    rfl
  have e2 : run_dynamic kernel cfg.num_threads (initial_state cfg.height cfg.width)
      = initial_state cfg.height cfg.width := by
    unfold run_dynamic run_threads
    rw [h0]
    rfl
  rcases hp with hp | hp
  · simp only [main, hp, if_true, e1]
    simp [initial_state]
  · have hne : ¬ ("dynamic" = "static") := by decide
    simp only [main, hp, hne, if_false, if_true, e2]
    simp [initial_state]

/-- C7 as amended, instance: `num_threads = 0` with the dynamic policy. -/
theorem thread_count_below_one_renders_nothing_witness :
    (0 : Int) < 1
    ∧ (main kAll ⟨0, "dynamic", 3, 2, 1⟩).state = initial_state 3 2
    ∧ (main kAll ⟨0, "dynamic", 3, 2, 1⟩).exit_status = 0
    ∧ (main kAll ⟨0, "dynamic", 3, 2, 1⟩).saved = some (Image.zero 3 2) := by
  have h := thread_count_below_one_renders_nothing kAll
    ⟨0, "dynamic", 3, 2, 1⟩
    (by decide) (Or.inr rfl)
  exact ⟨by decide, h.1, h.2.2.2.2.1, h.2.2.2.2.2.1⟩

/-! ## C8: a worker writes only its own rows -/

/-- C10 fails on the code: with two dynamic workers on a 2 × 1 image and a
kernel that reports both pixels as inside, each worker alone counts 1, and the
schedule that lets each thread finish before the next starts leaves
`pixels_inside = 2` (as the sequential render does); but in the schedule in
which both threads read `pixels_inside` before either writes it, all threads
finish and `pixels_inside` is 1, not the sum 2 of the local counts. -/
theorem shared_tally_lost_update :
    (worker_dynamic kAll 0 2 (initial_state 2 1)).pixels_inside = 1
    ∧ (worker_dynamic kAll 1 2 (initial_state 2 1)).pixels_inside = 1
    ∧ (run_dynamic kAll 2 (initial_state 2 1)).pixels_inside = 2
    ∧ (interleave kAll [0, 0, 0, 1, 1, 1] (spawn (worker_dynamic kAll) 2 (initial_state 2 1))
        (initial_state 2 1)).2.pixels_inside = 2
    ∧ (interleave kAll [0, 0, 0, 1, 1, 1] (spawn (worker_dynamic kAll) 2 (initial_state 2 1))
        (initial_state 2 1)).1.all Thread.finished = true
    ∧ (interleave kAll [0, 1, 0, 1, 0, 1] (spawn (worker_dynamic kAll) 2 (initial_state 2 1))
        (initial_state 2 1)).1.all Thread.finished = true
    ∧ (interleave kAll [0, 1, 0, 1, 0, 1] (spawn (worker_dynamic kAll) 2 (initial_state 2 1))
        (initial_state 2 1)).2.pixels_inside = 1
    ∧ (interleave kAll [0, 1, 0, 1, 0, 1] (spawn (worker_dynamic kAll) 2 (initial_state 2 1))
        (initial_state 2 1)).2.accesses = [(0, 0), (1, 0)] := by
  decide

/-! ## C11: the colour seed -/

/-- C11, counterexample: for thread id 8421505 of 8421506 threads the product
`255 * thread_id` leaves the range of `int`; in 32-bit arithmetic the seed is
`-254`, which is no channel value and is below the seed 254 of thread id
8421504, and both workers hand it to the kernel (`kAll` paints it). -/
theorem colour_seed_overflow_counterexample :
    (1 : Int) ≤ 8421506 ∧ (0 : Int) ≤ 8421505 ∧ (8421505 : Int) < 8421506
    ∧ I32.seed 8421505 8421506 = -254
    ∧ ¬ (0 ≤ I32.seed 8421505 8421506)
    ∧ I32.seed 8421504 8421506 = 254
    ∧ ¬ (I32.seed 8421504 8421506 ≤ I32.seed 8421505 8421506)
    ∧ (I32.worker_static kAll 8421505 8421506 (initial_state 8421506 1)).image.data 8421505 0
        = (-254, 0, 0)
    ∧ (I32.worker_dynamic kAll 2 8421505 8421506 (initial_state 8421506 1)).image.data
        8421505 0 = (-254, 0, 0) := by
  decide

/-- C11, amended: for `n ≥ 1` and `0 ≤ t < n` with `255 * t ≤ 2147483647` (the
product fits an `int`), both workers use the kernel only with the seed
`(255 * t) / n` (replacing the kernel's seed argument by this value changes
nothing), and each pixel of an own row receives the kernel's value for that
seed; the truncating quotient equals the floor quotient, lies in `[0, 254]`, is
0 for thread id 0, and is non-decreasing in the thread id up to `t`. -/
theorem colour_seed (kernel : Kernel) (s : State) (n t : Int) (hn : 1 ≤ n) (ht0 : 0 ≤ t)
    (htn : t < n) (hs : 255 * t ≤ 2147483647) :
    I32.worker_static kernel t n s
      = I32.worker_static (fun p px _ => kernel p px (Int.tdiv (255 * t) n)) t n s
    ∧ (∀ fuel : Nat, I32.worker_dynamic kernel fuel t n s
        = I32.worker_dynamic (fun p px _ => kernel p px (Int.tdiv (255 * t) n)) fuel t n s)
    ∧ (∀ r c, 0 ≤ s.image.height → r ∈ block_rows t (Int.tdiv s.image.height n) → 0 ≤ c →
        c < s.image.width →
        (I32.worker_static kernel t n s).image.data r c
          = (kernel (point s.image r c) (s.image.data r c) (Int.tdiv (255 * t) n)).1)
    ∧ (∀ (fuel : Nat) (r c : Int), s.image.height + n ≤ 2147483648 →
        s.image.height.toNat ≤ fuel → r ∈ strided_rows t n s.image.height → 0 ≤ c →
        c < s.image.width →
        (I32.worker_dynamic kernel fuel t n s).image.data r c
          = (kernel (point s.image r c) (s.image.data r c) (Int.tdiv (255 * t) n)).1)
    ∧ I32.seed t n = Int.tdiv (255 * t) n
    ∧ Int.tdiv (255 * t) n = 255 * t / n
    ∧ 0 ≤ I32.seed t n ∧ I32.seed t n ≤ 254
    ∧ I32.seed 0 n = 0
    ∧ (∀ t1 t2, 0 ≤ t1 → t1 ≤ t2 → t2 ≤ t → I32.seed t1 n ≤ I32.seed t2 n) := by
  obtain ⟨b1, b2, b3⟩ := seed_bounds t n hn ht0 htn
  have e := i32_seed_eq t n ht0 hs
  have ew : wrap32 (255 * t) = 255 * t := wrap32_of_range _ (by omega) hs
  refine ⟨?_, ?_, ?_, ?_, e, b1, by rw [e]; exact b2, by rw [e]; exact b3,
    by rw [i32_seed_eq 0 n (le_refl _) (by decide)]; simp, ?_⟩
  · simp only [I32.worker_static, ew, render_row_fix_seed]
  · intro fuel
    simp only [I32.worker_dynamic, ew, render_row_fix_seed]
  · intro r c hh hr hc0 hcw
    rw [i32_worker_static_rows kernel t n s hn hh, ← e]
    exact render_const_jobs_pixel kernel _ _ (block_rows_sorted t _).nodup s r c hr hc0 hcw
  · intro fuel r c hov hf hr hc0 hcw
    rw [i32_worker_dynamic_jobs kernel fuel t n s hn ht0 hov hf, ← e]
    exact render_const_jobs_pixel kernel _ _ (strided_rows_sorted t n _ hn).nodup s r c hr
      hc0 hcw
  · intro t1 t2 h1 h12 h2t
    rw [i32_seed_eq t1 n h1 (by omega), i32_seed_eq t2 n (by omega) (by omega),
      Int.tdiv_eq_ediv (by omega) (by omega), Int.tdiv_eq_ediv (by omega) (by omega)]
    exact Int.ediv_le_ediv (by omega) (by omega)

/-- C11 as amended, instance: thread id 1 of 2 gets the seed 127, which the
kernel `kAll` paints into the pixels of the thread's rows. -/
theorem colour_seed_witness :
    (1 : Int) ≤ 2 ∧ (0 : Int) ≤ 1 ∧ (1 : Int) < 2 ∧ (255 : Int) * 1 ≤ 2147483647
    ∧ I32.seed 1 2 = 127
    ∧ (I32.worker_static kAll 1 2 (initial_state 4 2)).image.data 3 1 = (127, 0, 0)
    ∧ (I32.worker_dynamic kAll 4 1 2 (initial_state 4 2)).image.data 3 1 = (127, 0, 0) := by
  have h := colour_seed kAll (initial_state 4 2) 2 1 (by decide) (by decide) (by decide)
    (by decide)
  refine ⟨by decide, by decide, by decide, by decide, by decide, ?_, ?_⟩
  · rw [h.2.2.1 3 1 (by decide) (by decide) (by decide) (by decide)]
    rfl
  · rw [h.2.2.2.1 4 3 1 (by decide) (by decide) (by decide) (by decide) (by decide)]
    rfl

/-! ## C12: the viewport mapping -/

/-- C14, counterexample: for thread id 1 of 2147483647 threads on an image of
height 2, `⌈(h - t) / n⌉ = 1`, but the step `row += num_threads` leaves the
range of `int`, and in 32-bit arithmetic the row loop of `worker_dynamic` runs
3 iterations before it leaves (the same for every larger iteration bound). -/
theorem dynamic_iterations_overflow_counterexample :
    (1 : Int) ≤ 2147483647 ∧ (0 : Int) ≤ 1 ∧ (1 : Int) < 2147483647
    ∧ 0 ≤ (initial_state 2 1).image.height ∧ (1 : Int) < (initial_state 2 1).image.height
    ∧ ((initial_state 2 1).image.height - 1 + 2147483647 - 1) / 2147483647 = 1
    ∧ (I32.worker_dynamic kAll 10 1 2147483647 (initial_state 2 1)).rows.length = 3
    ∧ (I32.worker_dynamic kAll 11 1 2147483647 (initial_state 2 1)).rows.length = 3 := by
  decide

/-- C14, amended: for `n ≥ 1`, `0 ≤ t < n` and a height `h ≥ 0` with
`h + n ≤ 2^31` (so that `row += num_threads` stays within `int`), the row loop
of `worker_dynamic` leaves by its own condition (every iteration bound `≥ h`
gives the result of the bound `h`) after exactly `(h - t + n - 1) / n`
iterations, which is `⌈(h - t) / n⌉`; that is at least one iteration when
`t < h` and none when `t ≥ h`; and the iteration counts of two thread ids differ
by at most 1. -/
theorem dynamic_balanced (kernel : Kernel) (s : State) (n t : Int) (fuel : Nat) (hn : 1 ≤ n)
    (ht0 : 0 ≤ t) (htn : t < n) (hh : 0 ≤ s.image.height)
    (hov : s.image.height + n ≤ 2147483648) (hf : s.image.height.toNat ≤ fuel) :
    I32.worker_dynamic kernel fuel t n s
      = I32.worker_dynamic kernel s.image.height.toNat t n s
    ∧ (I32.worker_dynamic kernel fuel t n s).rows.length
        = s.rows.length + ((s.image.height - t + n - 1) / n).toNat
    ∧ (s.image.height - t + n - 1) / n
        = ⌈(((s.image.height - t : Int) : ℚ)) / ((n : Int) : ℚ)⌉
    ∧ (t < s.image.height → 1 ≤ (s.image.height - t + n - 1) / n)
    ∧ (s.image.height ≤ t → (I32.worker_dynamic kernel fuel t n s).rows = s.rows)
    ∧ (∀ t', 0 ≤ t' → t' < n →
        ((I32.worker_dynamic kernel fuel t n s).rows.length : Int)
            ≤ (I32.worker_dynamic kernel fuel t' n s).rows.length + 1
        ∧ ((I32.worker_dynamic kernel fuel t' n s).rows.length : Int)
            ≤ (I32.worker_dynamic kernel fuel t n s).rows.length + 1) := by
  have hrows : ∀ u, 0 ≤ u → (I32.worker_dynamic kernel fuel u n s).rows
      = s.rows ++ strided_rows u n s.image.height := by
    intro u hu
    rw [i32_worker_dynamic_jobs kernel fuel u n s hn hu hov hf, render_const_jobs_rows]
  have hlen : ∀ u, 0 ≤ u → (I32.worker_dynamic kernel fuel u n s).rows.length
      = s.rows.length + ((s.image.height - u + n - 1) / n).toNat := by
    intro u hu
    rw [hrows u hu, List.length_append, strided_rows_length]
  refine ⟨?_, hlen t ht0, strided_count_eq_ceil t n _ hn, ?_, ?_, ?_⟩
  · rw [i32_worker_dynamic_jobs kernel fuel t n s hn ht0 hov hf,
      i32_worker_dynamic_jobs kernel _ t n s hn ht0 hov (le_refl _)]
  · intro hlt
    have : (1 : Int) = n / n := (Int.ediv_self (by omega)).symm
    rw [this]
    exact Int.ediv_le_ediv (by omega) (by omega)
  · intro hle
    have h0 : (s.image.height - t + n - 1) / n ≤ 0 := by
      have := Int.ediv_lt_of_lt_mul (show 0 < n by omega)
        (show s.image.height - t + n - 1 < 1 * n by omega)
      omega
    have hl := hlen t ht0
    rw [Int.toNat_eq_zero.mpr h0, hrows t ht0, List.length_append] at hl
    have hnil : strided_rows t n s.image.height = [] := List.length_eq_zero.mp (by omega)
    rw [hrows t ht0, hnil, List.append_nil]
  · intro t' ht0' htn'
    have a := strided_count_le_succ t t' n s.image.height hn ht0 htn'
    have b := strided_count_le_succ t' t n s.image.height hn ht0' htn
    have qa : 0 ≤ (s.image.height - t + n - 1) / n := Int.ediv_nonneg (by omega) (by omega)
    have qb : 0 ≤ (s.image.height - t' + n - 1) / n := Int.ediv_nonneg (by omega) (by omega)
    rw [hlen t ht0, hlen t' ht0']
    push_cast
    rw [Int.toNat_of_nonneg qa, Int.toNat_of_nonneg qb]
    constructor <;> omega

/-- C14 as amended, instance: thread ids 0 and 2 of 3 on the zero image of
height 7 and width 2 run 3 and 2 row iterations. -/
theorem dynamic_balanced_witness :
    (1 : Int) ≤ 3 ∧ (0 : Int) ≤ 0 ∧ (0 : Int) < 3 ∧ 0 ≤ (initial_state 7 2).image.height
    ∧ (initial_state 7 2).image.height + 3 ≤ 2147483648
    ∧ (initial_state 7 2).image.height.toNat ≤ 9
    ∧ (I32.worker_dynamic kAll 9 0 3 (initial_state 7 2)).rows.length = 3
    ∧ (I32.worker_dynamic kAll 9 2 3 (initial_state 7 2)).rows.length = 2
    ∧ ((I32.worker_dynamic kAll 9 0 3 (initial_state 7 2)).rows.length : Int)
        ≤ (I32.worker_dynamic kAll 9 2 3 (initial_state 7 2)).rows.length + 1 := by
  have h := dynamic_balanced kAll (initial_state 7 2) 3 0 9 (by decide) (by decide)
    (by decide) (by decide) (by decide) (by decide)
  refine ⟨by decide, by decide, by decide, by decide, by decide, by decide, ?_, by decide, ?_⟩
  · rw [h.2.1]
    decide
  · exact (h.2.2.2.2.2 2 (by decide) (by decide)).1

/-! ## C15: static partitioning with more threads than rows -/

/-- C16: when `work_allocation` is neither `"static"` nor `"dynamic"`, `main`
creates no thread, returns exit status 1, saves no image and prints neither the
policy nor a pixel count; for `"static"` it creates exactly the threads
`worker_static` for the thread ids `0 .. num_threads-1` (in this order, one
each, and no dynamic worker), and for `"dynamic"` exactly the threads
`worker_dynamic` for these ids; in both cases it saves the rendered image and
returns exit status 0. -/
theorem allocation_policy (kernel : Kernel) (cfg : Config) :
    (cfg.work_allocation ≠ "static" → cfg.work_allocation ≠ "dynamic" →
      (main kernel cfg).exit_status = 1
      ∧ (main kernel cfg).saved = none
      ∧ (main kernel cfg).printed_pixels = none
      ∧ (main kernel cfg).printed_allocation = none
      ∧ (main kernel cfg).state = initial_state cfg.height cfg.width
      ∧ (main kernel cfg).state.threads = [])
    ∧ (cfg.work_allocation = "static" →
      (main kernel cfg).exit_status = 0
      ∧ (main kernel cfg).state
          = run_static kernel cfg.num_threads (initial_state cfg.height cfg.width)
      ∧ (main kernel cfg).state.threads
          = (row_range cfg.num_threads).map (fun t => (WorkerKind.static, t))
      ∧ (main kernel cfg).saved = some (main kernel cfg).state.image)
    ∧ (cfg.work_allocation = "dynamic" →
      (main kernel cfg).exit_status = 0
      ∧ (main kernel cfg).state
          = run_dynamic kernel cfg.num_threads (initial_state cfg.height cfg.width)
      ∧ (main kernel cfg).state.threads
          = (row_range cfg.num_threads).map (fun t => (WorkerKind.dynamic, t))
      ∧ (main kernel cfg).saved = some (main kernel cfg).state.image) := by
  have ts : (run_static kernel cfg.num_threads (initial_state cfg.height cfg.width)).threads
      = (row_range cfg.num_threads).map (fun t => (WorkerKind.static, t)) := by
    unfold run_static
    rw [run_threads_threads kernel _ _ (fun t h => static_jobs t cfg.num_threads h)
      cfg.num_threads (fun t st => worker_static_eq kernel t cfg.num_threads st)]
    rfl
  have td : (run_dynamic kernel cfg.num_threads (initial_state cfg.height cfg.width)).threads
      = (row_range cfg.num_threads).map (fun t => (WorkerKind.dynamic, t)) := by
    unfold run_dynamic
    rw [run_threads_threads kernel _ _ (fun t h => dynamic_jobs t cfg.num_threads h)
      cfg.num_threads (fun t st => worker_dynamic_eq kernel t cfg.num_threads st)]
    rfl
  refine ⟨?_, ?_, ?_⟩
  · intro h1 h2
    refine ⟨?_, ?_, ?_, ?_, ?_, ?_⟩ <;> simp only [main, h1, h2, if_false]
    rfl
  · intro h1
    refine ⟨?_, ?_, ?_, ?_⟩ <;> simp only [main, h1, if_true]
    exact ts
  · intro h1
    have hne : ¬ ("dynamic" = "static") := by decide
    refine ⟨?_, ?_, ?_, ?_⟩ <;> simp only [main, h1, hne, if_false, if_true]
    exact td

/-- C16, instance: the policy `"guided"` is rejected with exit status 1 and
nothing saved; `"static"` and `"dynamic"` with two threads create the threads
0 and 1 of the named kind and return 0. -/
theorem allocation_policy_witness :
    (main kAll ⟨2, "guided", 4, 2, 2⟩).exit_status = 1
    ∧ (main kAll ⟨2, "guided", 4, 2, 2⟩).saved = none
    ∧ (main kAll ⟨2, "guided", 4, 2, 2⟩).printed_pixels = none
    ∧ (main kAll ⟨2, "guided", 4, 2, 2⟩).state.threads = []
    ∧ (main kAll ⟨2, "static", 4, 2, 2⟩).exit_status = 0
    ∧ (main kAll ⟨2, "static", 4, 2, 2⟩).state.threads
        = (row_range 2).map (fun t => (WorkerKind.static, t))
    ∧ (main kAll ⟨2, "dynamic", 4, 2, 2⟩).exit_status = 0
    ∧ (main kAll ⟨2, "dynamic", 4, 2, 2⟩).state.threads
        = (row_range 2).map (fun t => (WorkerKind.dynamic, t)) := by
  have a := (allocation_policy kAll ⟨2, "guided", 4, 2, 2⟩).1 (by decide) (by decide)
  have b := (allocation_policy kAll ⟨2, "static", 4, 2, 2⟩).2.1 rfl
  have c := (allocation_policy kAll ⟨2, "dynamic", 4, 2, 2⟩).2.2 rfl
  exact ⟨a.1, a.2.1, a.2.2.1, a.2.2.2.2.2, b.1, b.2.2.1, c.1, c.2.2.1⟩

end Mandelbrot
